import Mathlib

/-!
Verification development for the VER (verifiable execution reordering)
block-production pipeline: the deterministic shuffler and its seeded PRNG
(`primitives/shuffler/src/lib.rs`), the verifying executor
(`frame/executive/src/lib.rs`), and the block builder's pool-drain loop
(`client/basic-authorship-ver/src/basic_authorship.rs`), embedded shallowly.
Machine integers (`u64`, `u32`, `usize`) are embedded as `Nat` with explicit
reductions modulo `2 ^ 64` / `2 ^ 32` where Rust wraps or truncates.
-/

set_option maxHeartbeats 1000000
set_option linter.unusedVariables false

namespace Spec2Proof

/-- One 64-bit word of PRNG state; values are kept below `2 ^ 64`. -/
def U64MOD : Nat := 2 ^ 64

/-- `rotl(x, k)` from the shuffler crate: `((x) << (k)) | ((x) >> (64 - (k)))`
on `u64`; the left shift wraps modulo `2 ^ 64`. -/
def rotl (x k : Nat) : Nat := ((x <<< k) % U64MOD) ||| (x >>> (64 - k))

/-- The four-word state of `Xoshiro256PlusPlus`, `s: [u64; 4]`. -/
structure Xoshiro256PlusPlus where
  s0 : Nat
  s1 : Nat
  s2 : Nat
  s3 : Nat
  deriving Repr, DecidableEq

/-- `u64::from_le_bytes` on a little-endian byte list (each byte is a `u8`,
embedded as `Nat` reduced modulo `256`). -/
def from_le_bytes (bs : List Nat) : Nat :=
  bs.foldr (fun b acc => b % 256 + 256 * acc) 0

/-- `Xoshiro256PlusPlus::from_seed`: the state is the 4 little-endian 64-bit
words of the 32-byte seed (`seed[0..8]`, `seed[8..16]`, `seed[16..24]`,
`seed[24..32]`). -/
def from_seed (seed : List Nat) : Xoshiro256PlusPlus :=
  { s0 := from_le_bytes ((seed.drop 0).take 8)
    s1 := from_le_bytes ((seed.drop 8).take 8)
    s2 := from_le_bytes ((seed.drop 16).take 8)
    s3 := from_le_bytes ((seed.drop 24).take 8) }

/-- `Xoshiro256PlusPlus::next_u32`: one xor-shift-rotate step
(`t = s1 << 17`; `s2 ^= s0; s3 ^= s1; s1 ^= s2; s0 ^= s3`; `s2 ^= t`;
`s3 = rotl(s3, 45)`), returning `(s0 + s3) as u32` of the updated state. -/
def next_u32 (st : Xoshiro256PlusPlus) : Nat × Xoshiro256PlusPlus :=
  let t := (st.s1 <<< 17) % U64MOD
  let s2a := st.s2 ^^^ st.s0
  let s3a := st.s3 ^^^ st.s1
  let s1a := st.s1 ^^^ s2a
  let s0a := st.s0 ^^^ s3a
  let s2b := s2a ^^^ t
  let s3b := rotl s3a 45
  ((s0a + s3b) % 2 ^ 32, ⟨s0a, s1a, s2b, s3b⟩)

/-- `Xoshiro256PlusPlus::next_u64`: two `next_u32` draws,
`(first << 32) | second`. -/
def next_u64 (st : Xoshiro256PlusPlus) : Nat × Xoshiro256PlusPlus :=
  let f := next_u32 st
  let s := next_u32 f.2
  ((f.1 <<< 32) ||| s.1, s.2)

/-- The spec's description of the generator's step (refinement comparison
definition, following the spec's words): perform the specified step
(`t = s1 << 17`; the triple-xor cascade; `s2 ^= t`; 45-bit left-rotate of
`s3`) once and return the 64-bit value `s0 + s3` for the resulting state. -/
def next_u64_spec (st : Xoshiro256PlusPlus) : Nat × Xoshiro256PlusPlus :=
  let t := (st.s1 <<< 17) % U64MOD
  let s2a := st.s2 ^^^ st.s0
  let s3a := st.s3 ^^^ st.s1
  let s1a := st.s1 ^^^ s2a
  let s0a := st.s0 ^^^ s3a
  let s2b := s2a ^^^ t
  let s3b := rotl s3a 45
  ((s0a + s3b) % U64MOD, ⟨s0a, s1a, s2b, s3b⟩)

/-- `<[T]>::swap(i, j)` on a list: exchange the elements at indices `i` and
`j` (both are always in bounds at every call site below). -/
def list_swap {T : Type _} (l : List T) (i j : Nat) : List T :=
  match l[i]?, l[j]? with
  | some a, some b => (l.set i b).set j a
  | _, _ => l

/-- The loop of `FisherYates::shuffle`: `for i in (1..data.len()).rev()`,
draw `random = next_u64()`, set `j = random % i`, swap `data[i]` and
`data[j]`.  `fy_loop st l n` runs the iterations `i = n, n-1, ..., 1`. -/
def fy_loop {T : Type _} (st : Xoshiro256PlusPlus) (l : List T) :
    Nat → List T × Xoshiro256PlusPlus
  | 0 => (l, st)
  | i + 1 =>
    let r := next_u64 st
    let j := r.1 % (i + 1)
    fy_loop r.2 (list_swap l (i + 1) j) i

/-- `FisherYates::shuffle(data)`: run the loop from `data.len() - 1` down
to `1`, threading the PRNG state. -/
def fisher_yates_shuffle {T : Type _} (st : Xoshiro256PlusPlus) (l : List T) :
    List T × Xoshiro256PlusPlus :=
  fy_loop st l (l.length - 1)

/-- Rust's derived `Ord` on `Option<A>` (the `BTreeMap` key order):
`None` sorts below every `Some`, and `Some a < Some b` iff `a < b`.
The base order on `A` (Rust's `A: Ord`) is passed as `ltb`. -/
def option_lt {A : Type _} (ltb : A → A → Bool) : Option A → Option A → Bool
  | none, none => false
  | none, some _ => true
  | some _, none => false
  | some a, some b => ltb a b

/-- `groups.entry(who).or_insert_with(VecDeque::new).push_back(tx)` on the
sorted association-list model of `BTreeMap<K, VecDeque<E>>`.  Each group is
`(key, front of queue, rest of queue)`; queues are never empty. -/
def insert_group {K E : Type _} [DecidableEq K] (ltb : K → K → Bool) (k : K)
    (e : E) : List (K × E × List E) → List (K × E × List E)
  | [] => [(k, e, [])]
  | g :: rest =>
    if k = g.1 then (g.1, g.2.1, g.2.2 ++ [e]) :: rest
    else if ltb k g.1 then (k, e, []) :: g :: rest
    else g :: insert_group ltb k e rest

/-- The grouping fold of `shuffle_using_seed`: build the
`BTreeMap<Option<A>, VecDeque<E>>` of payload queues, preserving each key's
original relative order. -/
def group_extrinsics {K E : Type _} [DecidableEq K] (ltb : K → K → Bool)
    (l : List (K × E)) : List (K × E × List E) :=
  l.foldl (fun g p => insert_group ltb p.1 p.2 g) []

/-- One round of the `while` loop: take the front payload of every group (in
map-key order), and keep, with its front popped, every group that is still
non-empty afterwards. -/
def pop_round {K E : Type _} (g : List (K × E × List E)) :
    List E × List (K × E × List E) :=
  (g.map (fun x => x.2.1),
   g.filterMap (fun x =>
     match x.2.2 with
     | [] => none
     | h :: t => some (x.1, h, t)))

/-- Total number of queued payloads; used as fuel for the `while` loop,
since every round removes one payload from each of the (at least one)
remaining groups. -/
def total_size {K E : Type _} (g : List (K × E × List E)) : Nat :=
  (g.map (fun x => x.2.2.length + 1)).sum

/-- The `while !grouped_extrinsics.is_empty()` loop of `shuffle_using_seed`:
form a round from the group fronts, Fisher-Yates-shuffle only that round's
slice (`fy.shuffle(&mut slots[from..to])`), append it to the output, and
repeat with the popped groups, threading the PRNG state. -/
def shuffle_rounds {K E : Type _} (fuel : Nat) (st : Xoshiro256PlusPlus)
    (g : List (K × E × List E)) : List E :=
  match fuel with
  | 0 => []
  | fuel + 1 =>
    match g with
    | [] => []
    | _ :: _ =>
      let round := pop_round g
      let shuffled := fisher_yates_shuffle st round.1
      shuffled.1 ++ shuffle_rounds fuel shuffled.2 round.2

/-- `shuffle_using_seed(extrinsics, seed)`: seed the Fisher-Yates PRNG from
the 32-byte seed, group the payloads by (optional) signer, then emit rounds,
each permuted in place, until every group is drained. -/
def shuffle_using_seed {A E : Type _} [DecidableEq A] (ltb : A → A → Bool)
    (extrinsics : List (Option A × E)) (seed : List Nat) : List E :=
  let fy := from_seed seed
  let grouped := group_extrinsics (option_lt ltb) extrinsics
  shuffle_rounds (total_size grouped) fy grouped

/-- The client-side `shuffle` (primitives/shuffler/src/lib.rs, lines
156-187): a list of at most one extrinsic is returned unchanged; otherwise
each extrinsic's signer is inferred with `get_signer` (the rolled-back
`api.get_signer` lookup) and the pairs are passed to `shuffle_using_seed`. -/
def shuffle {A E : Type _} [DecidableEq A] (ltb : A → A → Bool)
    (get_signer : E → Option A) (extrinsics : List E) (seed : List Nat) :
    List E :=
  if extrinsics.length ≤ 1 then extrinsics
  else shuffle_using_seed ltb (extrinsics.map (fun tx => (get_signer tx, tx))) seed

/-- The keys of the association-list model of the `BTreeMap`, in map order. -/
def keys_of {K E : Type _} (g : List (K × E × List E)) : List K :=
  g.map (fun x => x.1)

/-- The full queue of payloads held by the group with key `a`
(front element first), or `[]` when no such group exists. -/
def queue_of {K E : Type _} [DecidableEq K] (a : K)
    (g : List (K × E × List E)) : List E :=
  (g.filterMap (fun x => if x.1 = a then some (x.2.1 :: x.2.2) else none)).flatten

/-- Every payload stored under a key carries that key (true for the tagged
instantiation used to state per-signer order preservation). -/
def group_tagged {K E : Type _} (tag : E → K)
    (g : List (K × E × List E)) : Prop :=
  ∀ x ∈ g, tag x.2.1 = x.1 ∧ ∀ e ∈ x.2.2, tag e = x.1

/-- `ltb` is a strict total order (the contract of Rust's `Ord::lt`). -/
def strict_order {K : Type _} (ltb : K → K → Bool) : Prop :=
  (∀ a b, ltb a b = true → ltb b a = false) ∧
  (∀ a b c, ltb a b = true → ltb b c = true → ltb a c = true) ∧
  (∀ a b : K, a ≠ b → ltb a b = true ∨ ltb b a = true)

/-- The keys of the association list are strictly increasing in `ltb`
(the `BTreeMap` representation invariant). -/
def sorted_keys {K E : Type _} (ltb : K → K → Bool)
    (g : List (K × E × List E)) : Prop :=
  List.Pairwise (fun p q => ltb p q = true) (keys_of g)

/-- The concrete 32-byte seed `[1, 0, 0, ..., 0]`. -/
def c4_seed : List Nat := 1 :: List.replicate 31 0

/-- The error carried by a failed transaction application; `exhausted`
models `err.exhausted_resources()` on `TransactionValidityError`. -/
structure TxError where
  exhausted : Bool
  deriving Repr, DecidableEq

/-- The hard faults of the verifying executor: each constructor corresponds
to one `assert!` / `expect` / `panic!` site of `execute_block_ver_impl` and
its callees. -/
inductive VerError where
  | seed_verification_failed
  | initial_checks_failed
  | not_enough_elements_to_pop
  | queue_not_processed
  | popped_txs_mismatch
  | tx_execution_panic
  | collator_did_not_execute_queue
  | only_unique_txs
  | cannot_deserialize_enqueued
  | not_properly_signed
  | would_exhaust_block_limits
  | state_root_mismatch
  deriving Repr, DecidableEq

/-- One entry of the on-chain `StorageQueue`:
`(block_number, next_free_index, Vec<(Option<AccountId>, Vec<u8>)>)`,
with account ids embedded as `Nat` and encoded transactions as `D`. -/
structure QueueEntry (D : Type _) where
  block_nr : Nat
  index : Nat
  txs : List (Option Nat × D)
  deriving Repr, DecidableEq

/-- The consensus state the embedded executor manipulates: the storage
queue plus the abstract remainder of chain state. -/
structure SysState (D S : Type _) where
  queue : List (QueueEntry D)
  extra : S
  deriving Repr, DecidableEq

/-- The runtime interface of the executor.  These are the spec's external
collaborators (the single-transaction dispatch engine, codec, VRF and trie
checks), passed as an explicit environment. -/
structure VerEnv (D X S : Type _) where
  decode : D → Option X
  is_signed : X → Bool
  apply_extrinsic : SysState D S → X → Except TxError (SysState D S)
  check_ok : X → Bool
  get_dispatch_info : X → Nat
  max_weight : Nat
  ver_checks_ok : Bool
  initial_checks_ok : Bool
  state_root : SysState D S → Nat
  finalize_hook : SysState D S → SysState D S

/-- VER header fields used by the executor: `count` (how many queued
transactions this block commits to having executed), the 32-byte shuffling
seed and the declared post-state root. -/
structure Header where
  count : Nat
  seed : List Nat
  state_root : Nat
  deriving Repr, DecidableEq

/-- Modelled from the spec: popping a single transaction from the storage
queue (frame_system's queue implementation is not under `src/`): take the
front transaction of the oldest non-empty entry, dropping exhausted
entries. -/
def pop_one {D : Type _} :
    List (QueueEntry D) → Option ((Option Nat × D) × List (QueueEntry D))
  | [] => none
  | e :: rest =>
    match e.txs with
    | [] => pop_one rest
    | p :: ts => some (p, { e with txs := ts } :: rest)

/-- Modelled from the spec: `pop_txs(count)` removes up to `count`
transactions from the oldest entries, in entry order then intra-entry
order; it returns fewer than `count` only when the queue holds fewer. -/
def pop_txs {D : Type _} :
    List (QueueEntry D) → Nat → List (Option Nat × D) × List (QueueEntry D)
  | q, 0 => ([], q)
  | q, n + 1 =>
    match pop_one q with
    | none => ([], q)
    | some (p, q2) =>
      let r := pop_txs q2 n
      (p :: r.1, r.2)

/-- Modelled from the spec: `enqueued_blocks_count`, the number of whole
block-entries currently held by the storage queue. -/
def enqueued_blocks_count {D S : Type _} (st : SysState D S) : Nat :=
  st.queue.length

/-- Total number of transactions available across all queue entries. -/
def queue_total {D : Type _} (q : List (QueueEntry D)) : Nat :=
  (q.map (fun e => e.txs.length)).sum

/-- Modelled from the spec: the executor pops `count` transactions and they
come out in the deterministic seeded order of §4.2 — `set_block_seed`
orders the stored queue with the shuffling seed, so the verifying side
"replays that same process deterministically".  The shuffle is the real
`shuffle_using_seed` of the shuffler crate, keyed by the stored
(optional) signer. -/
def pop_txs_ver {D : Type _} (seed : List Nat) (q : List (QueueEntry D))
    (count : Nat) : List D × List (QueueEntry D) :=
  let r := pop_txs q count
  (shuffle_using_seed Nat.blt r.1 seed, r.2)

/-- Modelled from the spec: `frame_system::calculate_consumed_weight`
accumulates the transaction's weight and fails when the running total
would exceed the runtime's configured block capacity. -/
def calculate_consumed_weight (max_w all info : Nat) : Option Nat :=
  if all + info > max_w then none else some (all + info)

/-- `Executive::execute_extrinsics_with_book_keeping` (lines 677-704):
apply each extrinsic in order; an application error aborts the import only
when the failing extrinsic is an inherent (`!is_extrinsic`) or the error is
exhausted-resources; any other failing signed transaction is skipped (its
state changes were rolled back) and execution continues.  Afterwards the
end-of-block book-keeping hooks run. -/
def execute_extrinsics_with_book_keeping {D X S : Type _}
    (env : VerEnv D X S) :
    SysState D S → List X → Except VerError (SysState D S)
  | st, [] => Except.ok (env.finalize_hook st)
  | st, tx :: rest =>
    match env.apply_extrinsic st tx with
    | Except.ok st2 => execute_extrinsics_with_book_keeping env st2 rest
    | Except.error e =>
      if !env.is_signed tx || e.exhausted then
        Except.error VerError.tx_execution_panic
      else execute_extrinsics_with_book_keeping env st rest

/-- The weight fold of lines 653-663: for each decoded enqueued
transaction, `check` must succeed (else the `expect` "incomming tx needs to
be properly signed" fires) and `calculate_consumed_weight` must stay within
the block limits (else the `expect` "Transaction would exhaust the block
limits" fires). -/
def check_batch_weights {D X S : Type _} (env : VerEnv D X S) :
    List X → Nat → Except VerError Unit
  | [], _ => Except.ok ()
  | t :: rest, all =>
    if env.check_ok t = false then Except.error VerError.not_properly_signed
    else
      match calculate_consumed_weight env.max_weight all
          (env.get_dispatch_info t) with
      | none => Except.error VerError.would_exhaust_block_limits
      | some all2 => check_batch_weights env rest all2

/-- Decode every enqueued transaction (the
`.map(|(_who, tx_data)| decode(tx_data).expect(..)).collect()` of lines
653-655): `none` when any payload fails to decode. -/
def decode_all {D X S : Type _} (env : VerEnv D X S) :
    List (Option Nat × D) → Option (List X)
  | [] => some []
  | p :: ps =>
    match env.decode p.2 with
    | none => none
    | some t =>
      match decode_all env ps with
      | none => none
      | some ts => some (t :: ts)

/-- The newly-enqueued-batch validation of lines 646-666: all transactions
of the batch must be pairwise distinct (the `BTreeSet` cardinality check),
each must decode (`expect`: hard fault) and the batch must fit the block
weight capacity. -/
def check_enqueued_batch {D X S : Type _} [DecidableEq D] (env : VerEnv D X S)
    (txs : List (Option Nat × D)) : Except VerError Unit :=
  if ¬ txs.Nodup then Except.error VerError.only_unique_txs
  else
    match decode_all env txs with
    | none => Except.error VerError.cannot_deserialize_enqueued
    | some decoded => check_batch_weights env decoded 0

/-- Lines 644-666: the batch check runs only when the last queue entry was
created by the current block. -/
def new_enqueued_check {D X S : Type _} [DecidableEq D] (env : VerEnv D X S)
    (block_number : Nat) (st : SysState D S) : Except VerError Unit :=
  match st.queue.getLast? with
  | some entry =>
    if entry.block_nr = block_number then check_enqueued_batch env entry.txs
    else Except.ok ()
  | none => Except.ok ()

/-- `Executive::final_checks` as used by the VER path: the computed storage
root must match the header's declared root ("Storage root must match that
calculated."). -/
def final_checks {D X S : Type _} (env : VerEnv D X S) (header : Header)
    (st : SysState D S) : Except VerError (SysState D S) :=
  if env.state_root st ≠ header.state_root then
    Except.error VerError.state_root_mismatch
  else Except.ok st

/-- `Executive::execute_block_ver_impl` (lines 595-674).  Each `assert!`,
`expect` or `panic!` site of the source is an `Except.error`; on success
the function returns the post-execution state.  The stages, in source
order: `ver_checks` (VRF seed verification), `set_block_seed` (whose queue
ordering is folded into `pop_txs_ver`), `initial_checks`, the pop of
`header.count` queued transactions with the "not enought elements to pop
found" assert, the queue/body reconciliation asserts, execution of
inherents-but-last ++ popped ++ last-inherent, the
"Collator didnt execute enqueued txs" assert, the newly-enqueued batch
checks, and `final_checks`.  (`initialize_block` and the signature-batching
verification are external state/crypto machinery and are abstracted into
the environment's check flags.) -/
def execute_block_ver_impl {D X S : Type _} [DecidableEq D] [DecidableEq X]
    (env : VerEnv D X S) (block_number : Nat) (header : Header)
    (body : List X) (st0 : SysState D S) : Except VerError (SysState D S) :=
  if env.ver_checks_ok = false then
    Except.error VerError.seed_verification_failed
  else if env.initial_checks_ok = false then
    Except.error VerError.initial_checks_failed
  else
    let popped := pop_txs_ver header.seed st0.queue header.count
    if popped.1.length ≠ header.count then
      Except.error VerError.not_enough_elements_to_pop
    else
      let popped_txs := popped.1.filterMap env.decode
      let curr_inherents := body.filter (fun e => !env.is_signed e)
      let curr_extrinsics := body.filter (fun e => env.is_signed e)
      if 0 < curr_extrinsics.length ∧
          ¬(popped.2.isEmpty = true ∨ 0 < header.count) then
        Except.error VerError.queue_not_processed
      else if popped_txs ≠ curr_extrinsics then
        Except.error VerError.popped_txs_mismatch
      else
        let n_inh := curr_inherents.length
        let to_execute := curr_inherents.take (n_inh - 1) ++ popped_txs
            ++ curr_inherents.drop (n_inh - 1)
        let st1 : SysState D S := { queue := popped.2, extra := st0.extra }
        let before := enqueued_blocks_count st1
        match execute_extrinsics_with_book_keeping env st1 to_execute with
        | Except.error e => Except.error e
        | Except.ok st2 =>
          if ¬(before = 0 ∨ header.count ≠ 0 ∨
              before = enqueued_blocks_count st2) then
            Except.error VerError.collator_did_not_execute_queue
          else
            match new_enqueued_check env block_number st2 with
            | Except.error e => Except.error e
            | Except.ok _ => final_checks env header st2

/-- A trivial runtime environment over `Nat` data: every datum decodes to
itself, extrinsics `≥ 100` count as signed, dispatch is a no-op. -/
def envW : VerEnv Nat Nat Nat :=
  { decode := fun d => some d
    is_signed := fun x => decide (100 ≤ x)
    apply_extrinsic := fun st _ => Except.ok st
    check_ok := fun _ => true
    get_dispatch_info := fun _ => 1
    max_weight := 10
    ver_checks_ok := true
    initial_checks_ok := true
    state_root := fun _ => 0
    finalize_hook := fun st => st }

/-- The one-transaction batch entry that `envB`'s enqueue inherent
appends for block `1`. -/
def entryB : QueueEntry Nat :=
  { block_nr := 1, index := 0, txs := [(some 2, 108)] }

/-- A runtime environment whose inherent `50` enqueues the batch
`[(some 2, 108)]` for block `1`, modelling the enqueue inherent. -/
def envB : VerEnv Nat Nat Nat :=
  { decode := fun d => some d
    is_signed := fun x => decide (100 ≤ x)
    apply_extrinsic := fun st x =>
      if x = 50 then
        Except.ok { queue := st.queue ++ [entryB], extra := st.extra }
      else Except.ok st
    check_ok := fun _ => true
    get_dispatch_info := fun _ => 1
    max_weight := 10
    ver_checks_ok := true
    initial_checks_ok := true
    state_root := fun _ => 0
    finalize_hook := fun st => st }

/-- A runtime environment in which every application fails with a
non-exhausting validity error, and everything is signed. -/
def envSkip : VerEnv Nat Nat Nat :=
  { decode := fun d => some d
    is_signed := fun _ => true
    apply_extrinsic := fun _ _ => Except.error { exhausted := false }
    check_ok := fun _ => true
    get_dispatch_info := fun _ => 1
    max_weight := 10
    ver_checks_ok := true
    initial_checks_ok := true
    state_root := fun _ => 0
    finalize_hook := fun st => st }

/-- A one-transaction parent queue: block `0` enqueued the signed
transaction `107` by account `1`. -/
def stW : SysState Nat Nat :=
  { queue := [{ block_nr := 0, index := 0, txs := [(some 1, 107)] }]
    extra := 0 }

/-- `stW` after its single transaction was popped. -/
def stW2 : SysState Nat Nat :=
  { queue := [{ block_nr := 0, index := 0, txs := [] }], extra := 0 }

/-- A header committing to one popped transaction. -/
def hdrW : Header :=
  { count := 1, seed := List.replicate 32 0, state_root := 0 }

/-- A header committing to no popped transactions. -/
def hdr0 : Header :=
  { count := 0, seed := List.replicate 32 0, state_root := 0 }

/-- "If the block is full we will attempt to push at most this number of
transactions before quitting for real." -/
def MAX_SKIPPED_TRANSACTIONS : Nat := 8

/-- Outcome of validating one pending transaction in the rollback sandbox:
success, `exhausted_resources()`, or any other validity error. -/
inductive TxValidity where
  | ok
  | exhausted
  | invalid
  deriving Repr, DecidableEq

/-- One ready transaction from the pool, together with the clock values the
loop observes while handling it: `t_now` is `(self.now)()` read at the top
of the iteration (used for the deadline check and the size-branch
soft-deadline check), `t_now2` is the second `(self.now)()` read inside the
exhausted-resources branch. -/
structure PendingTx (D : Type _) where
  data : D
  size : Nat
  t_now : Nat
  t_now2 : Nat
  validity : TxValidity
  deriving Repr, DecidableEq

/-- `EndProposingReason` of the builder. -/
inductive EndProposingReason where
  | no_more_transactions
  | hit_deadline
  | hit_block_size_limit
  | hit_block_weight_limit
  deriving Repr, DecidableEq

/-- The loop state when `propose_with`'s pool-drain loop exits. -/
structure DrainResult (D : Type _) where
  valid_txs : List (Option Nat × D)
  unqueue_invalid : List D
  skipped : Nat
  block_size : Nat
  end_reason : EndProposingReason
  deriving Repr, DecidableEq

/-- The pool-drain loop of `Proposer::propose_with` (lines 499-602).  For
each pending transaction: check the hard deadline; add the encoded size
plus `H256::len_bytes()` to the running block size (never rolled back); if
the size limit is exceeded, skip while `skipped < MAX_SKIPPED_TRANSACTIONS`
(incrementing) or while still before the soft deadline (not incrementing),
else stop with `HitBlockSizeLimit`; otherwise validate: a valid
transaction is staged with its signer, an exhausted-resources failure
follows the same bounded-then-soft-deadline skip policy (stopping with
`HitBlockWeightLimit`), and any other failure is recorded for pool removal
(only when no skips have happened yet) and the loop continues. -/
def propose_with_drain_loop {D : Type _} (get_signer : D → Option Nat)
    (deadline soft_deadline block_size_limit : Nat) :
    Nat → Nat → List (Option Nat × D) → List D → List (PendingTx D) →
      DrainResult D
  | skipped, block_size, valid, unq, [] =>
    ⟨valid, unq, skipped, block_size, EndProposingReason.no_more_transactions⟩
  | skipped, block_size, valid, unq, tx :: rest =>
    if tx.t_now > deadline then
      ⟨valid, unq, skipped, block_size, EndProposingReason.hit_deadline⟩
    else
      let bs2 := block_size + tx.size + 32
      if bs2 > block_size_limit then
        if skipped < MAX_SKIPPED_TRANSACTIONS then
          propose_with_drain_loop get_signer deadline soft_deadline
            block_size_limit (skipped + 1) bs2 valid unq rest
        else if tx.t_now < soft_deadline then
          propose_with_drain_loop get_signer deadline soft_deadline
            block_size_limit skipped bs2 valid unq rest
        else
          ⟨valid, unq, skipped, bs2, EndProposingReason.hit_block_size_limit⟩
      else
        match tx.validity with
        | TxValidity.ok =>
          propose_with_drain_loop get_signer deadline soft_deadline
            block_size_limit skipped bs2
            (valid ++ [(get_signer tx.data, tx.data)]) unq rest
        | TxValidity.exhausted =>
          if skipped < MAX_SKIPPED_TRANSACTIONS then
            propose_with_drain_loop get_signer deadline soft_deadline
              block_size_limit (skipped + 1) bs2 valid unq rest
          else if tx.t_now2 < soft_deadline then
            propose_with_drain_loop get_signer deadline soft_deadline
              block_size_limit skipped bs2 valid unq rest
          else
            ⟨valid, unq, skipped, bs2,
              EndProposingReason.hit_block_weight_limit⟩
        | TxValidity.invalid =>
          if skipped > 0 then
            propose_with_drain_loop get_signer deadline soft_deadline
              block_size_limit skipped bs2 valid unq rest
          else
            propose_with_drain_loop get_signer deadline soft_deadline
              block_size_limit skipped bs2 valid (unq ++ [tx.data]) rest

/-- A resource-exhausting pending transaction observed well before the
soft deadline. -/
def bad_tx : PendingTx Nat :=
  { data := 9, size := 0, t_now := 0, t_now2 := 0,
    validity := TxValidity.exhausted }

/-- A valid pending transaction observed well before the soft deadline. -/
def good_tx : PendingTx Nat :=
  { data := 7, size := 0, t_now := 0, t_now2 := 0,
    validity := TxValidity.ok }

/-- A transaction too big for the remaining size budget, observed after
the soft deadline. -/
def big_late_tx : PendingTx Nat :=
  { data := 1, size := 100, t_now := 200, t_now2 := 200,
    validity := TxValidity.ok }

/-- A weight-exhausting transaction observed after the soft deadline. -/
def exhausting_late_tx : PendingTx Nat :=
  { data := 1, size := 1, t_now := 200, t_now2 := 200,
    validity := TxValidity.exhausted }

/-- Modelled from the spec (§4.4.5): the builder's pool validation.  Each
pool transaction is staged only if it decodes to a properly signed
transaction that passes `check`, is not already staged (queue batches may
not contain duplicates, §4.3), and keeps the accumulated batch weight
within the block capacity. -/
def select_valid_txs {D X S : Type _} [DecidableEq D] (env : VerEnv D X S) :
    List (Option Nat × D) → List (Option Nat × D) → Nat →
      List (Option Nat × D)
  | [], staged, _ => staged
  | p :: pool, staged, all =>
    match env.decode p.2 with
    | none => select_valid_txs env pool staged all
    | some t =>
      if env.is_signed t = false then select_valid_txs env pool staged all
      else if env.check_ok t = false then select_valid_txs env pool staged all
      else if p ∈ staged then select_valid_txs env pool staged all
      else
        match calculate_consumed_weight env.max_weight all
            (env.get_dispatch_info t) with
        | none => select_valid_txs env pool staged all
        | some all2 => select_valid_txs env pool (staged ++ [p]) all2

/-- Modelled from the spec (§4.4): the VER block builder.  `c` is the
number of queued transactions replayed this block (§9 allows partial
drains).  The built block's body carries the inherents, the enqueue
inherent as the last inherent, and the replayed (shuffled) queued
transactions as its signed extrinsics; the header commits to the popped
count and the post-execution state root. -/
def build_block_ver {D X S : Type _} [DecidableEq D] [DecidableEq X]
    (env : VerEnv D X S) (block_number : Nat) (st0 : SysState D S)
    (inherents : List X) (enqueue_xt : List (Option Nat × D) → X) (c : Nat)
    (seed : List Nat) (pool : List (Option Nat × D)) :
    Except VerError (Header × List X × SysState D S) :=
  let popped := pop_txs_ver seed st0.queue c
  let popped_txs := popped.1.filterMap env.decode
  let batch := select_valid_txs env pool [] 0
  let to_execute := inherents ++ popped_txs ++ [enqueue_xt batch]
  match execute_extrinsics_with_book_keeping env
      { queue := popped.2, extra := st0.extra } to_execute with
  | Except.error e => Except.error e
  | Except.ok st2 =>
    Except.ok
      ({ count := popped.1.length, seed := seed,
         state_root := env.state_root st2 },
       inherents ++ [enqueue_xt batch] ++ popped_txs, st2)

/-- Concrete extrinsic type for the agreement witness: inherents, signed
transactions carrying their encoded datum, and the enqueue inherent
carrying its batch. -/
inductive XtW where
  | inh : Nat → XtW
  | tx : Nat → XtW
  | enq : List (Option Nat × Nat) → XtW
  deriving Repr, DecidableEq

/-- Concrete runtime environment for the agreement witness: every datum
decodes to the signed transaction carrying it, the enqueue inherent
appends its batch for block `1`, everything else is a state-preserving
no-op. -/
def envC1 : VerEnv Nat XtW Nat :=
  { decode := fun d => some (XtW.tx d)
    is_signed := fun x =>
      match x with
      | XtW.tx _ => true
      | _ => false
    apply_extrinsic := fun st x =>
      match x with
      | XtW.enq b =>
        Except.ok { queue := st.queue
          ++ [{ block_nr := 1, index := 0, txs := b }], extra := st.extra }
      | _ => Except.ok st
    check_ok := fun _ => true
    get_dispatch_info := fun _ => 1
    max_weight := 10
    ver_checks_ok := true
    initial_checks_ok := true
    state_root := fun _ => 0
    finalize_hook := fun st => st }

/-- The final state of the witness block: the parent batch drained, the
(empty) new batch enqueued for block `1`. -/
def stBC1 : SysState Nat Nat :=
  { queue := [{ block_nr := 0, index := 0, txs := [] }, { block_nr := 1, index := 0, txs := [] }]
    extra := 0 }

/-! ## Theorems -/

/-! ## Permutation facts about the Fisher-Yates pass -/

theorem set_cons_perm {T : Type _} :
    ∀ (xs : List T) (i : Nat) (a b : T), xs[i]? = some a →
      List.Perm (a :: xs.set i b) (b :: xs) := by
  intro xs
  induction xs with
  | nil => intro i a b h; simp at h
  | cons x t ih =>
    intro i a b h
    cases i with
    | zero =>
      simp at h
      subst h
      simpa using List.Perm.swap b x t
    | succ i =>
      simp at h
      have h1 : List.Perm (a :: x :: t.set i b) (x :: a :: t.set i b) :=
        List.Perm.swap x a _
      have h2 : List.Perm (x :: a :: t.set i b) (x :: b :: t) :=
        List.Perm.cons x (ih i a b h)
      have h3 : List.Perm (x :: b :: t) (b :: x :: t) := List.Perm.swap b x t
      simpa using (h1.trans h2).trans h3

theorem list_swap_perm {T : Type _} :
    ∀ (l : List T) (i j : Nat), List.Perm (list_swap l i j) l := by
  intro l
  induction l with
  | nil => intro i j; simp [list_swap]
  | cons x t ih =>
    intro i j
    cases i with
    | zero =>
      cases j with
      | zero => simp [list_swap]
      | succ j =>
        cases hj : t[j]? with
        | none => simp [list_swap, hj]
        | some b =>
          have goal := set_cons_perm t j b x hj
          simpa [list_swap, hj] using goal
    | succ i =>
      cases hi : t[i]? with
      | none => simp [list_swap, hi]
      | some a =>
        cases j with
        | zero =>
          have goal := set_cons_perm t i a x hi
          simpa [list_swap, hi] using goal
        | succ j =>
          cases hj : t[j]? with
          | none => simp [list_swap, hi, hj]
          | some b =>
            have step : List.Perm (list_swap t i j) t := ih i j
            simp only [list_swap, hi, hj] at step ⊢
            simpa [List.getElem?_cons_succ, hi, hj] using List.Perm.cons x step

theorem fy_loop_perm {T : Type _} :
    ∀ (n : Nat) (st : Xoshiro256PlusPlus) (l : List T),
      List.Perm (fy_loop st l n).1 l := by
  intro n
  induction n with
  | zero => intro st l; simp [fy_loop]
  | succ i ih =>
    intro st l
    simp only [fy_loop]
    exact (ih _ _).trans (list_swap_perm l (i + 1) _)

theorem fisher_yates_shuffle_perm {T : Type _} (st : Xoshiro256PlusPlus)
    (l : List T) : List.Perm (fisher_yates_shuffle st l).1 l :=
  fy_loop_perm (l.length - 1) st l

theorem strict_order_irrefl {K : Type _} {ltb : K → K → Bool}
    (h : strict_order ltb) (a : K) : ltb a a = false := by
  cases hb : ltb a a with
  | false => rfl
  | true =>
    have h2 := h.1 a a hb
    rw [hb] at h2
    exact h2

theorem keys_of_cons {K E : Type _} (x : K × E × List E)
    (g : List (K × E × List E)) : keys_of (x :: g) = x.1 :: keys_of g := rfl

theorem queue_of_cons {K E : Type _} [DecidableEq K] (a : K)
    (x : K × E × List E) (g : List (K × E × List E)) :
    queue_of a (x :: g)
      = (if x.1 = a then x.2.1 :: x.2.2 else []) ++ queue_of a g := by
  by_cases hx : x.1 = a <;> simp [queue_of, hx]

theorem queue_of_eq_nil {K E : Type _} [DecidableEq K] {a : K} :
    ∀ {g : List (K × E × List E)}, a ∉ keys_of g → queue_of a g = [] := by
  intro g
  induction g with
  | nil => intro _; simp [queue_of]
  | cons x rest ih =>
    intro h
    rw [keys_of_cons, List.mem_cons] at h
    push_neg at h
    rw [queue_of_cons, if_neg (fun he => h.1 he.symm), ih h.2]
    rfl

theorem sorted_keys_not_mem {K E : Type _} {ltb : K → K → Bool}
    (ho : strict_order ltb) {x : K × E × List E}
    {g : List (K × E × List E)} (hs : sorted_keys ltb (x :: g)) :
    x.1 ∉ keys_of g := by
  intro hmem
  have hlt : ltb x.1 x.1 = true := by
    have := (List.pairwise_cons.mp hs).1
    exact this x.1 hmem
  rw [strict_order_irrefl ho] at hlt
  exact Bool.false_ne_true hlt

theorem sorted_keys_tail {K E : Type _} {ltb : K → K → Bool}
    {x : K × E × List E} {g : List (K × E × List E)}
    (hs : sorted_keys ltb (x :: g)) : sorted_keys ltb g :=
  (List.pairwise_cons.mp hs).2

theorem sorted_keys_cons {K E : Type _} (ltb : K → K → Bool)
    (x : K × E × List E) (g : List (K × E × List E)) :
    sorted_keys ltb (x :: g)
      ↔ (∀ y ∈ keys_of g, ltb x.1 y = true) ∧ sorted_keys ltb g := by
  simp [sorted_keys, keys_of, List.pairwise_cons]

theorem keys_of_insert_group {K E : Type _} [DecidableEq K]
    (ltb : K → K → Bool) (k : K) (e : E) :
    ∀ (g : List (K × E × List E)) (y : K),
      y ∈ keys_of (insert_group ltb k e g) → y = k ∨ y ∈ keys_of g := by
  intro g
  induction g with
  | nil => intro y hy; simp [insert_group, keys_of] at hy; exact Or.inl hy
  | cons x rest ih =>
    intro y hy
    by_cases hk : k = x.1
    · rw [insert_group, if_pos hk] at hy
      rw [keys_of_cons, List.mem_cons] at hy
      rcases hy with hy | hy
      · exact Or.inr (by rw [keys_of_cons, List.mem_cons]; exact Or.inl hy)
      · exact Or.inr (by rw [keys_of_cons, List.mem_cons]; exact Or.inr hy)
    · rw [insert_group, if_neg hk] at hy
      by_cases hl : ltb k x.1
      · rw [if_pos hl] at hy
        rw [keys_of_cons, List.mem_cons] at hy
        rcases hy with hy | hy
        · exact Or.inl hy
        · exact Or.inr hy
      · rw [if_neg hl] at hy
        rw [keys_of_cons, List.mem_cons] at hy
        rcases hy with hy | hy
        · exact Or.inr (by rw [keys_of_cons, List.mem_cons]; exact Or.inl hy)
        · rcases ih y hy with h | h
          · exact Or.inl h
          · exact Or.inr (by rw [keys_of_cons, List.mem_cons]; exact Or.inr h)

theorem insert_group_sorted {K E : Type _} [DecidableEq K]
    {ltb : K → K → Bool} (ho : strict_order ltb) (k : K) (e : E) :
    ∀ (g : List (K × E × List E)), sorted_keys ltb g →
      sorted_keys ltb (insert_group ltb k e g) := by
  intro g
  induction g with
  | nil => intro _; simp [insert_group, sorted_keys, keys_of]
  | cons x rest ih =>
    intro hs
    have hs_tail := sorted_keys_tail hs
    have hs_head := (List.pairwise_cons.mp hs).1
    by_cases hk : k = x.1
    · rw [insert_group, if_pos hk]
      exact hs
    · rw [insert_group, if_neg hk]
      by_cases hl : ltb k x.1
      · rw [if_pos hl]
        refine (sorted_keys_cons ltb _ _).mpr ⟨?_, hs⟩
        intro y hy
        rw [keys_of_cons, List.mem_cons] at hy
        rcases hy with hy | hy
        · rw [hy]; exact hl
        · exact ho.2.1 k x.1 y hl ((sorted_keys_cons ltb x rest).mp hs |>.1 y hy)
      · rw [if_neg hl]
        have hxk : ltb x.1 k = true := by
          rcases ho.2.2 k x.1 hk with h | h
          · exact absurd h hl
          · exact h
        refine (sorted_keys_cons ltb _ _).mpr ⟨?_, ih hs_tail⟩
        intro y hy
        rcases keys_of_insert_group ltb k e rest y hy with h | h
        · rw [h]; exact hxk
        · exact (sorted_keys_cons ltb x rest).mp hs |>.1 y h

theorem insert_group_tagged {K E : Type _} [DecidableEq K]
    {ltb : K → K → Bool} {tag : E → K} {k : K} {e : E} (he : tag e = k) :
    ∀ (g : List (K × E × List E)), group_tagged tag g →
      group_tagged tag (insert_group ltb k e g) := by
  intro g
  induction g with
  | nil =>
    intro _
    intro x hx
    simp [insert_group] at hx
    subst hx
    exact ⟨he, by intro e2 he2; simp at he2⟩
  | cons x rest ih =>
    intro ht
    have htx := ht x (List.mem_cons_self x rest)
    have htr : group_tagged tag rest := fun y hy => ht y (List.mem_cons_of_mem x hy)
    by_cases hk : k = x.1
    · rw [insert_group, if_pos hk]
      intro y hy
      rw [List.mem_cons] at hy
      rcases hy with hy | hy
      · subst hy
        refine ⟨htx.1, ?_⟩
        intro e2 he2
        rw [List.mem_append] at he2
        rcases he2 with he2 | he2
        · exact htx.2 e2 he2
        · rw [List.mem_singleton] at he2
          subst he2
          rw [he, hk]
      · exact htr y hy
    · rw [insert_group, if_neg hk]
      by_cases hl : ltb k x.1
      · rw [if_pos hl]
        intro y hy
        rw [List.mem_cons] at hy
        rcases hy with hy | hy
        · subst hy
          exact ⟨he, by intro e2 he2; simp at he2⟩
        · exact ht y hy
      · rw [if_neg hl]
        intro y hy
        rw [List.mem_cons] at hy
        rcases hy with hy | hy
        · subst hy; exact htx
        · exact ih htr y hy

theorem queue_of_insert_group {K E : Type _} [DecidableEq K]
    {ltb : K → K → Bool} (ho : strict_order ltb) (a k : K) (e : E) :
    ∀ (g : List (K × E × List E)), sorted_keys ltb g →
      queue_of a (insert_group ltb k e g)
        = if k = a then queue_of a g ++ [e] else queue_of a g := by
  intro g
  induction g with
  | nil =>
    intro _
    by_cases hk : k = a <;>
      simp [insert_group, queue_of, hk]
  | cons x rest ih =>
    intro hs
    have hs_tail := sorted_keys_tail hs
    have hnm : x.1 ∉ keys_of rest := sorted_keys_not_mem ho hs
    by_cases hk : k = x.1
    · rw [insert_group, if_pos hk]
      by_cases hxa : x.1 = a
      · have hqr : queue_of a rest = [] := queue_of_eq_nil (hxa ▸ hnm)
        rw [queue_of_cons, queue_of_cons, hqr]
        simp only [if_pos hxa]
        rw [if_pos (hk.trans hxa)]
        simp
      · rw [queue_of_cons, queue_of_cons]
        simp only [if_neg hxa]
        rw [if_neg (fun hka => hxa (hk.symm.trans hka))]
    · rw [insert_group, if_neg hk]
      by_cases hl : ltb k x.1
      · rw [if_pos hl, queue_of_cons]
        by_cases hka : k = a
        · have hna : a ∉ keys_of (x :: rest) := by
            rw [keys_of_cons, List.mem_cons]
            rintro (hax | hmem)
            · exact hk (hka.trans hax)
            · have hlt : ltb x.1 a = true :=
                (sorted_keys_cons ltb x rest).mp hs |>.1 a hmem
              rw [← hka] at hlt
              have hasym := ho.1 k x.1 hl
              rw [hlt] at hasym
              cases hasym
          have h1 : queue_of a (x :: rest) = [] := queue_of_eq_nil hna
          rw [h1]
          simp [hka]
        · simp [hka]
      · rw [if_neg hl, queue_of_cons, ih hs_tail, queue_of_cons]
        by_cases hka : k = a
        · have hx1a : ¬ x.1 = a := fun hx1a => hk (hka.trans hx1a.symm)
          simp [hka, hx1a]
        · simp [hka]

theorem group_fold_sorted {K E : Type _} [DecidableEq K]
    {ltb : K → K → Bool} (ho : strict_order ltb) :
    ∀ (m : List (K × E)) (g : List (K × E × List E)), sorted_keys ltb g →
      sorted_keys ltb (m.foldl (fun g p => insert_group ltb p.1 p.2 g) g) := by
  intro m
  induction m with
  | nil => intro g hg; exact hg
  | cons p m ih =>
    intro g hg
    exact ih _ (insert_group_sorted ho p.1 p.2 g hg)

theorem group_fold_tagged {K E : Type _} [DecidableEq K]
    (ltb : K → K → Bool) (tag : E → K) :
    ∀ (m : List (K × E)), (∀ p ∈ m, tag p.2 = p.1) →
      ∀ (g : List (K × E × List E)), group_tagged tag g →
        group_tagged tag (m.foldl (fun g p => insert_group ltb p.1 p.2 g) g) := by
  intro m
  induction m with
  | nil => intro _ g hg; exact hg
  | cons p m ih =>
    intro hm g hg
    exact ih (fun q hq => hm q (List.mem_cons_of_mem p hq)) _
      (insert_group_tagged (hm p (List.mem_cons_self p m)) g hg)

theorem group_fold_queue_of {K E : Type _} [DecidableEq K]
    {ltb : K → K → Bool} (ho : strict_order ltb) (a : K) :
    ∀ (m : List (K × E)) (g : List (K × E × List E)), sorted_keys ltb g →
      queue_of a (m.foldl (fun g p => insert_group ltb p.1 p.2 g) g)
        = queue_of a g
            ++ (m.filter (fun p => decide (p.1 = a))).map (fun p => p.2) := by
  intro m
  induction m with
  | nil => intro g hg; simp
  | cons p m ih =>
    intro g hg
    rw [List.foldl_cons, ih _ (insert_group_sorted ho p.1 p.2 g hg),
      queue_of_insert_group ho a p.1 p.2 g hg]
    by_cases hpa : p.1 = a
    · simp [hpa]
    · simp [hpa]

/-! ## Structure of the rounds -/

theorem pop_round_fst {K E : Type _} (x : K × E × List E)
    (g : List (K × E × List E)) :
    (pop_round (x :: g)).1 = x.2.1 :: (pop_round g).1 := rfl

theorem pop_round_tagged {K E : Type _} {tag : E → K} :
    ∀ {g : List (K × E × List E)}, group_tagged tag g →
      group_tagged tag (pop_round g).2 := by
  intro g
  induction g with
  | nil => intro _ x hx; cases hx
  | cons x rest ih =>
    intro ht
    have htx := ht x (List.mem_cons_self x rest)
    have htr : group_tagged tag rest := fun y hy => ht y (List.mem_cons_of_mem x hy)
    cases hxt : x.2.2 with
    | nil =>
      intro y hy
      simp only [pop_round, List.filterMap_cons, hxt] at hy
      exact ih htr y hy
    | cons h t =>
      intro y hy
      simp only [pop_round, List.filterMap_cons, hxt] at hy
      rw [List.mem_cons] at hy
      rcases hy with hy | hy
      · subst hy
        refine ⟨?_, ?_⟩
        · exact htx.2 h (by rw [hxt]; exact List.mem_cons_self h t)
        · intro e he
          exact htx.2 e (by rw [hxt]; exact List.mem_cons_of_mem h he)
      · exact ih htr y hy

theorem keys_of_pop_round_sublist {K E : Type _} :
    ∀ (g : List (K × E × List E)),
      List.Sublist (keys_of (pop_round g).2) (keys_of g) := by
  intro g
  induction g with
  | nil => simp [pop_round, keys_of]
  | cons x rest ih =>
    cases hxt : x.2.2 with
    | nil =>
      simp only [pop_round, keys_of, List.filterMap_cons, hxt, List.map_cons]
      exact List.Sublist.cons x.1 ih
    | cons h t =>
      simp only [pop_round, keys_of, List.filterMap_cons, hxt, List.map_cons]
      exact List.Sublist.cons₂ x.1 ih

theorem pop_round_snd_cons_nil {K E : Type _} {x : K × E × List E}
    (g : List (K × E × List E)) (hxt : x.2.2 = []) :
    (pop_round (x :: g)).2 = (pop_round g).2 := by
  simp [pop_round, List.filterMap_cons, hxt]

theorem pop_round_snd_cons {K E : Type _} {x : K × E × List E}
    {h : E} {t : List E} (g : List (K × E × List E)) (hxt : x.2.2 = h :: t) :
    (pop_round (x :: g)).2 = (x.1, h, t) :: (pop_round g).2 := by
  simp [pop_round, List.filterMap_cons, hxt]

theorem total_size_cons {K E : Type _} (x : K × E × List E)
    (g : List (K × E × List E)) :
    total_size (x :: g) = x.2.2.length + 1 + total_size g := by
  simp [total_size]

theorem total_size_pop_round {K E : Type _} :
    ∀ (g : List (K × E × List E)),
      total_size (pop_round g).2 + g.length = total_size g := by
  intro g
  induction g with
  | nil => simp [pop_round, total_size]
  | cons x rest ih =>
    cases hxt : x.2.2 with
    | nil =>
      rw [pop_round_snd_cons_nil rest hxt, total_size_cons, hxt]
      simp only [List.length_cons, List.length_nil]
      omega
    | cons h t =>
      rw [pop_round_snd_cons rest hxt, total_size_cons, total_size_cons, hxt]
      simp only [List.length_cons]
      omega

theorem total_size_eq_zero {K E : Type _} :
    ∀ {g : List (K × E × List E)}, total_size g = 0 → g = [] := by
  intro g
  cases g with
  | nil => intro _; rfl
  | cons x rest => intro h; simp [total_size] at h

theorem round_filter_nil {K E : Type _} [DecidableEq K] {tag : E → K} {a : K} :
    ∀ {g : List (K × E × List E)}, group_tagged tag g → a ∉ keys_of g →
      (pop_round g).1.filter (fun e => decide (tag e = a)) = [] := by
  intro g
  induction g with
  | nil => intro _ _; rfl
  | cons x rest ih =>
    intro ht hna
    rw [keys_of_cons, List.mem_cons] at hna
    push_neg at hna
    have htx := ht x (List.mem_cons_self x rest)
    rw [pop_round_fst, List.filter_cons]
    have hneg : ¬ tag x.2.1 = a := by rw [htx.1]; exact fun h => hna.1 h.symm
    rw [if_neg (by simp [hneg])]
    exact ih (fun y hy => ht y (List.mem_cons_of_mem x hy)) hna.2

theorem round_filter_take {K E : Type _} [DecidableEq K] {tag : E → K} (a : K) :
    ∀ {g : List (K × E × List E)}, group_tagged tag g →
      (keys_of g).Nodup →
      (pop_round g).1.filter (fun e => decide (tag e = a))
        = (queue_of a g).take 1 := by
  intro g
  induction g with
  | nil => intro _ _; rfl
  | cons x rest ih =>
    intro ht hnd
    rw [keys_of_cons] at hnd
    have hnx : x.1 ∉ keys_of rest := (List.nodup_cons.mp hnd).1
    have hndr : (keys_of rest).Nodup := (List.nodup_cons.mp hnd).2
    have htx := ht x (List.mem_cons_self x rest)
    have htr : group_tagged tag rest := fun y hy => ht y (List.mem_cons_of_mem x hy)
    rw [pop_round_fst, List.filter_cons, queue_of_cons]
    by_cases hxa : x.1 = a
    · have htag : tag x.2.1 = a := htx.1.trans hxa
      rw [if_pos (by simp [htag]), if_pos hxa,
        round_filter_nil htr (hxa ▸ hnx), queue_of_eq_nil (hxa ▸ hnx)]
      simp
    · have htag : ¬ tag x.2.1 = a := by rw [htx.1]; exact hxa
      rw [if_neg (by simp [htag]), if_neg hxa, ih htr hndr]
      rfl

theorem queue_of_pop_round_drop {K E : Type _} [DecidableEq K] {tag : E → K}
    (a : K) :
    ∀ {g : List (K × E × List E)}, group_tagged tag g →
      (keys_of g).Nodup →
      queue_of a (pop_round g).2 = (queue_of a g).drop 1 := by
  intro g
  induction g with
  | nil => intro _ _; rfl
  | cons x rest ih =>
    intro ht hnd
    rw [keys_of_cons] at hnd
    have hnx : x.1 ∉ keys_of rest := (List.nodup_cons.mp hnd).1
    have hndr : (keys_of rest).Nodup := (List.nodup_cons.mp hnd).2
    have htr : group_tagged tag rest := fun y hy => ht y (List.mem_cons_of_mem x hy)
    cases hxt : x.2.2 with
    | nil =>
      rw [pop_round_snd_cons_nil rest hxt, queue_of_cons]
      by_cases hxa : x.1 = a
      · have hqrest : queue_of a rest = [] := queue_of_eq_nil (hxa ▸ hnx)
        have hq2 : queue_of a (pop_round rest).2 = [] :=
          queue_of_eq_nil (fun hmem =>
            (hxa ▸ hnx) ((keys_of_pop_round_sublist rest).mem hmem))
        rw [hq2, if_pos hxa, hxt, hqrest]
        simp
      · rw [if_neg hxa, ih htr hndr]
        rfl
    | cons h t =>
      rw [pop_round_snd_cons rest hxt, queue_of_cons, queue_of_cons]
      by_cases hxa : x.1 = a
      · have hqrest : queue_of a rest = [] := queue_of_eq_nil (hxa ▸ hnx)
        have hq2 : queue_of a (pop_round rest).2 = [] :=
          queue_of_eq_nil (fun hmem =>
            (hxa ▸ hnx) ((keys_of_pop_round_sublist rest).mem hmem))
        simp only [if_pos hxa, hxt, hqrest, hq2]
        simp
      · simp only [if_neg hxa]
        rw [ih htr hndr]
        rfl

theorem filter_perm_take_one {T : Type _} (p : T → Bool) {l1 l2 : List T}
    (hperm : List.Perm l1 l2) {q : List T} (h : l2.filter p = q.take 1) :
    l1.filter p = q.take 1 := by
  cases q with
  | nil =>
    have h2 : l2.filter p = [] := by simpa using h
    have h3 : l1.filter p = [] := ((hperm.filter p).trans (by rw [h2])).eq_nil
    simpa using h3
  | cons y t =>
    have h2 : l2.filter p = [y] := by simpa using h
    have h3 : l1.filter p = [y] :=
      List.perm_singleton.mp ((hperm.filter p).trans (by rw [h2]))
    simpa using h3

/-- Filtering the output of the round loop to the payloads tagged `a`
recovers exactly the queue that the grouped map holds for `a`. -/
theorem shuffle_rounds_filter {K E : Type _} [DecidableEq K] (tag : E → K)
    (a : K) :
    ∀ (fuel : Nat) (st : Xoshiro256PlusPlus) (g : List (K × E × List E)),
      total_size g ≤ fuel → group_tagged tag g → (keys_of g).Nodup →
      (shuffle_rounds fuel st g).filter (fun e => decide (tag e = a))
        = queue_of a g := by
  intro fuel
  induction fuel with
  | zero =>
    intro st g hsz _ _
    have hg : g = [] := total_size_eq_zero (Nat.le_zero.mp hsz)
    subst hg
    rfl
  | succ fuel ih =>
    intro st g hsz ht hnd
    cases g with
    | nil => rfl
    | cons x rest =>
      show ((fisher_yates_shuffle st (pop_round (x :: rest)).1).1
          ++ shuffle_rounds fuel
              (fisher_yates_shuffle st (pop_round (x :: rest)).1).2
              (pop_round (x :: rest)).2).filter (fun e => decide (tag e = a))
        = queue_of a (x :: rest)
      rw [List.filter_append]
      have hperm := fisher_yates_shuffle_perm st (pop_round (x :: rest)).1
      have h1 : ((fisher_yates_shuffle st (pop_round (x :: rest)).1).1.filter
          (fun e => decide (tag e = a))) = (queue_of a (x :: rest)).take 1 :=
        filter_perm_take_one _ hperm (round_filter_take a ht hnd)
      have hsz2 : total_size (pop_round (x :: rest)).2 ≤ fuel := by
        have := total_size_pop_round (x :: rest)
        have hlen : 0 < (x :: rest).length := by simp
        omega
      have h2 : (shuffle_rounds fuel
            (fisher_yates_shuffle st (pop_round (x :: rest)).1).2
            (pop_round (x :: rest)).2).filter (fun e => decide (tag e = a))
          = queue_of a (pop_round (x :: rest)).2 :=
        ih _ _ hsz2 (pop_round_tagged ht)
          ((keys_of_pop_round_sublist (x :: rest)).nodup hnd)
      rw [h1, h2, queue_of_pop_round_drop a ht hnd, List.take_append_drop]

theorem strict_order_of_linear {A : Type _} [LinearOrder A] :
    strict_order (fun x y : A => decide (x < y)) := by
  refine ⟨?_, ?_, ?_⟩
  · intro a b h
    simp only [decide_eq_true_eq] at h
    simp [not_lt_of_gt h, le_of_lt h, not_lt.mpr]
  · intro a b c h1 h2
    simp only [decide_eq_true_eq] at h1 h2 ⊢
    exact lt_trans h1 h2
  · intro a b h
    rcases lt_or_gt_of_ne h with h2 | h2
    · exact Or.inl (by simpa using h2)
    · exact Or.inr (by simpa using h2)

theorem strict_order_option_lt {A : Type _} {ltb : A → A → Bool}
    (h : strict_order ltb) : strict_order (option_lt ltb) := by
  refine ⟨?_, ?_, ?_⟩
  · intro a b hab
    cases a <;> cases b <;> simp [option_lt] at hab ⊢
    exact h.1 _ _ hab
  · intro a b c hab hbc
    cases a <;> cases b <;> cases c <;> simp [option_lt] at hab hbc ⊢
    exact h.2.1 _ _ _ hab hbc
  · intro a b hab
    cases a <;> cases b <;> simp [option_lt]
    · exact absurd rfl hab
    · exact h.2.2 _ _ (by intro he; exact hab (by rw [he]))

theorem nodup_keys_of_sorted {K E : Type _} {ltb : K → K → Bool}
    (ho : strict_order ltb) {g : List (K × E × List E)}
    (hs : sorted_keys ltb g) : (keys_of g).Nodup := by
  refine hs.imp ?_
  intro p q hlt heq
  subst heq
  rw [strict_order_irrefl ho] at hlt
  exact Bool.false_ne_true hlt

/-- C2 helper: the fold of `insert_group` over the tagged input produces,
for each signer `a`, exactly the `a`-subsequence of the input. -/
theorem group_extrinsics_queue_of {A E : Type _} [LinearOrder A]
    (l : List (Option A × E)) (a : Option A) :
    queue_of a (group_extrinsics (option_lt (fun x y : A => decide (x < y)))
        (l.map (fun p => (p.1, p))))
      = l.filter (fun p => decide (p.1 = a)) := by
  have ho := strict_order_option_lt
    (strict_order_of_linear : strict_order (fun x y : A => decide (x < y)))
  rw [group_extrinsics,
    group_fold_queue_of ho a (l.map (fun p => (p.1, p))) [] List.Pairwise.nil]
  rw [List.filter_map]
  simp only [queue_of, List.filterMap_nil, List.flatten_nil, List.nil_append,
    List.map_map]
  have hcomp :
      ((fun q : Option A × (Option A × E) => decide (q.1 = a))
          ∘ fun p : Option A × E => (p.1, p))
        = fun p : Option A × E => decide (p.1 = a) := rfl
  rw [hcomp]
  have hsnd : ((fun x : Option A × (Option A × E) => x.2)
      ∘ fun p : Option A × E => (p.1, p)) = id := rfl
  rw [hsnd, List.map_id]

/-- C2: per-signer order preservation.  For every seed, every input list of
(optional signer, payload) pairs and every signer `a` (including the
unsigned `none` group), the subsequence of `shuffle_using_seed`'s output
consisting of `a`'s payloads equals the subsequence of the input consisting
of `a`'s payloads, in the same order.  (Payloads are instantiated with the
tagged pairs themselves, which identifies each payload's signer; the
function is polymorphic in the payload type, so this loses no generality.) -/
theorem shuffle_using_seed_preserves_per_signer_order {A E : Type _}
    [LinearOrder A] (l : List (Option A × E)) (seed : List Nat)
    (a : Option A) :
    (shuffle_using_seed (fun x y => decide (x < y))
        (l.map (fun p => (p.1, p))) seed).filter (fun p => decide (p.1 = a))
      = l.filter (fun p => decide (p.1 = a)) := by
  have ho := strict_order_option_lt
    (strict_order_of_linear : strict_order (fun x y : A => decide (x < y)))
  have hsorted := group_fold_sorted ho (l.map (fun p => (p.1, p))) []
    List.Pairwise.nil
  have htagged := group_fold_tagged
    (option_lt (fun x y : A => decide (x < y))) Prod.fst
    (l.map (fun p => (p.1, p)))
    (by
      intro p hp
      rw [List.mem_map] at hp
      obtain ⟨q, _, hq⟩ := hp
      rw [← hq])
    [] (by intro x hx; cases hx)
  have hnd := nodup_keys_of_sorted ho hsorted
  show (shuffle_rounds
      (total_size (group_extrinsics (option_lt (fun x y => decide (x < y)))
        (l.map (fun p => (p.1, p)))))
      (from_seed seed)
      (group_extrinsics (option_lt (fun x y => decide (x < y)))
        (l.map (fun p => (p.1, p))))).filter (fun p => decide (p.1 = a))
    = l.filter (fun p => decide (p.1 = a))
  simp only [group_extrinsics]
  rw [shuffle_rounds_filter Prod.fst a _ _ _ le_rfl htagged hnd]
  have hq := group_extrinsics_queue_of l a
  simp only [group_extrinsics] at hq
  exact hq

/-- C3 (evaluation of the code at the failing input): because the
Fisher-Yates pass draws `j = random % i` rather than `random % (i + 1)`,
`j` is never equal to `i`; in particular a two-element slice is swapped for
every PRNG state, where the claimed `0 ≤ j ≤ i` draw would leave it in
place with probability one half. -/
theorem fisher_yates_always_swaps_pairs {T : Type _}
    (st : Xoshiro256PlusPlus) (x y : T) :
    (fisher_yates_shuffle st [x, y]).1 = [y, x] := by
  simp [fisher_yates_shuffle, fy_loop, list_swap, Nat.mod_one]

/-- C4 counterexample: with the state seeded from the 32-byte seed
`[1, 0, ..., 0]` (so `s = [1, 0, 0, 0]`), `next_u64` returns
`4294967296 = 2 ^ 32`, whereas performing the specified step once and
returning the 64-bit value `s0 + s3` gives `1`.  `next_u64` is not the
single-step `s0 + s3` generator the claim describes. -/
theorem next_u64_counterexample :
    (next_u64 (from_seed c4_seed)).1 = 4294967296 ∧
      (next_u64_spec (from_seed c4_seed)).1 = 1 ∧
      (4294967296 : Nat) ≠ 1 := by
  refine ⟨by decide, by decide, by decide⟩

/-- C4 amended: `next_u64`, with state seeded from the 4 little-endian
64-bit words of the 32-byte seed, performs the specified step
(`t = s1 << 17`; the triple-xor cascade; `s2 ^= t`; 45-bit left-rotate of
`s3`) twice; each step yields the low 32 bits of `s0 + s3` of its updated
state, and the returned 64-bit value is `(first << 32) | second`. -/
theorem next_u64_is_two_truncated_steps (st : Xoshiro256PlusPlus) :
    next_u64 st
      = ((((next_u64_spec st).1 % 2 ^ 32) <<< 32)
            ||| ((next_u64_spec (next_u64_spec st).2).1 % 2 ^ 32),
          (next_u64_spec (next_u64_spec st).2).2) := by
  have hdvd : (4294967296 : Nat) ∣ 18446744073709551616 := by norm_num
  simp [next_u64, next_u32, next_u64_spec, U64MOD]
  rw [Nat.mod_mod_of_dvd _ hdvd, Nat.mod_mod_of_dvd _ hdvd]

/-- C10: the client-side `shuffle` returns every input list of length at
most 1 unchanged, for every signer-lookup function and every seed: the
empty list and singleton lists are fixed points of shuffling. -/
theorem shuffle_returns_short_lists_unchanged {A E : Type _} [DecidableEq A]
    (ltb : A → A → Bool) (get_signer : E → Option A) (l : List E)
    (seed : List Nat) (h : l.length ≤ 1) :
    shuffle ltb get_signer l seed = l := by
  rw [shuffle, if_pos h]

/-- C10 witness: a concrete singleton list is returned unchanged. -/
theorem shuffle_returns_short_lists_unchanged_witness :
    ([5] : List Nat).length ≤ 1 ∧
      shuffle Nat.blt (fun _ => (none : Option Nat)) [5]
        (List.replicate 32 0) = [5] :=
  ⟨by decide,
    shuffle_returns_short_lists_unchanged Nat.blt (fun _ => none) [5]
      (List.replicate 32 0) (by decide)⟩

/-! ## Queue-pop and shuffle length facts -/

theorem pop_one_none_iff {D : Type _} :
    ∀ (q : List (QueueEntry D)), pop_one q = none ↔ queue_total q = 0 := by
  intro q
  induction q with
  | nil => simp [pop_one, queue_total]
  | cons e rest ih =>
    cases hx : e.txs with
    | nil =>
      rw [pop_one]
      simp only [hx]
      rw [queue_total] at ih ⊢
      simp [hx, ih]
    | cons p ts =>
      rw [pop_one]
      simp only [hx]
      rw [queue_total]
      simp [hx]

theorem queue_total_cons {D : Type _} (e : QueueEntry D)
    (rest : List (QueueEntry D)) :
    queue_total (e :: rest) = e.txs.length + queue_total rest := by
  simp [queue_total]

theorem pop_one_total {D : Type _} :
    ∀ (q : List (QueueEntry D)) (p : Option Nat × D)
      (q2 : List (QueueEntry D)), pop_one q = some (p, q2) →
      queue_total q2 + 1 = queue_total q := by
  intro q
  induction q with
  | nil => intro p q2 h; simp [pop_one] at h
  | cons e rest ih =>
    intro p q2 h
    cases hx : e.txs with
    | nil =>
      rw [pop_one] at h
      simp only [hx] at h
      have h2 := ih p q2 h
      rw [queue_total_cons, hx]
      simpa using h2
    | cons p2 ts =>
      rw [pop_one] at h
      simp only [hx] at h
      rw [Option.some_inj] at h
      have hq : q2 = { block_nr := e.block_nr, index := e.index, txs := ts }
          :: rest := (congrArg Prod.snd h).symm
      subst hq
      rw [queue_total_cons, queue_total_cons, hx]
      simp
      omega

theorem pop_txs_length {D : Type _} :
    ∀ (n : Nat) (q : List (QueueEntry D)),
      (pop_txs q n).1.length = min n (queue_total q) := by
  intro n
  induction n with
  | zero => intro q; simp [pop_txs]
  | succ n ih =>
    intro q
    rw [pop_txs]
    cases hp : pop_one q with
    | none =>
      have h0 : queue_total q = 0 := (pop_one_none_iff q).mp hp
      simp [h0]
    | some pr =>
      have ht := pop_one_total q pr.1 pr.2 (by rw [hp])
      simp only [List.length_cons, ih pr.2]
      omega

theorem fy_loop_length {T : Type _} (n : Nat) (st : Xoshiro256PlusPlus)
    (l : List T) : (fy_loop st l n).1.length = l.length :=
  (fy_loop_perm n st l).length_eq

theorem shuffle_rounds_length {K E : Type _} :
    ∀ (fuel : Nat) (st : Xoshiro256PlusPlus) (g : List (K × E × List E)),
      total_size g ≤ fuel → (shuffle_rounds fuel st g).length = total_size g := by
  intro fuel
  induction fuel with
  | zero =>
    intro st g hsz
    rw [total_size_eq_zero (Nat.le_zero.mp hsz)]
    rfl
  | succ fuel ih =>
    intro st g hsz
    cases g with
    | nil => simp [shuffle_rounds, total_size]
    | cons x rest =>
      show ((fisher_yates_shuffle st (pop_round (x :: rest)).1).1
          ++ shuffle_rounds fuel
              (fisher_yates_shuffle st (pop_round (x :: rest)).1).2
              (pop_round (x :: rest)).2).length = total_size (x :: rest)
      rw [List.length_append]
      have h1 : (fisher_yates_shuffle st (pop_round (x :: rest)).1).1.length
          = (x :: rest).length := by
        rw [(fisher_yates_shuffle_perm st (pop_round (x :: rest)).1).length_eq]
        simp [pop_round]
      have htot := total_size_pop_round (x :: rest)
      have hlen : 0 < (x :: rest).length := by simp
      have hsz2 : total_size (pop_round (x :: rest)).2 ≤ fuel := by omega
      rw [h1, ih _ _ hsz2]
      omega

theorem total_size_insert_group {K E : Type _} [DecidableEq K]
    (ltb : K → K → Bool) (k : K) (e : E) :
    ∀ (g : List (K × E × List E)),
      total_size (insert_group ltb k e g) = total_size g + 1 := by
  intro g
  induction g with
  | nil => simp [insert_group, total_size]
  | cons x rest ih =>
    by_cases hk : k = x.1
    · rw [insert_group, if_pos hk, total_size_cons, total_size_cons]
      simp
      omega
    · rw [insert_group, if_neg hk]
      by_cases hl : ltb k x.1
      · rw [if_pos hl, total_size_cons, total_size_cons]
        simp
        omega
      · rw [if_neg hl, total_size_cons, total_size_cons, ih]
        omega

theorem total_size_group_fold {K E : Type _} [DecidableEq K]
    (ltb : K → K → Bool) :
    ∀ (m : List (K × E)) (g : List (K × E × List E)),
      total_size (m.foldl (fun g p => insert_group ltb p.1 p.2 g) g)
        = total_size g + m.length := by
  intro m
  induction m with
  | nil => intro g; simp
  | cons p m ih =>
    intro g
    rw [List.foldl_cons, ih, total_size_insert_group]
    simp
    omega

theorem shuffle_using_seed_length {A E : Type _} [DecidableEq A]
    (ltb : A → A → Bool) (l : List (Option A × E)) (seed : List Nat) :
    (shuffle_using_seed ltb l seed).length = l.length := by
  show (shuffle_rounds (total_size (group_extrinsics (option_lt ltb) l))
      (from_seed seed) (group_extrinsics (option_lt ltb) l)).length = l.length
  rw [shuffle_rounds_length _ _ _ le_rfl]
  rw [group_extrinsics, total_size_group_fold]
  simp [total_size]

theorem pop_txs_ver_length {D : Type _} (seed : List Nat)
    (q : List (QueueEntry D)) (count : Nat) :
    (pop_txs_ver seed q count).1.length = min count (queue_total q) := by
  rw [pop_txs_ver]
  simp only
  rw [shuffle_using_seed_length, pop_txs_length]

/-! ## Inversion of a successful VER block verification -/

theorem execute_block_ver_ok_inversion {D X S : Type _} [DecidableEq D]
    [DecidableEq X] (env : VerEnv D X S) (block_number : Nat)
    (header : Header) (body : List X) (st0 stf : SysState D S)
    (h : execute_block_ver_impl env block_number header body st0
      = Except.ok stf) :
    env.ver_checks_ok = true ∧
    env.initial_checks_ok = true ∧
    (pop_txs_ver header.seed st0.queue header.count).1.length = header.count ∧
    (pop_txs_ver header.seed st0.queue header.count).1.filterMap env.decode
      = body.filter (fun e => env.is_signed e) ∧
    execute_extrinsics_with_book_keeping env
        { queue := (pop_txs_ver header.seed st0.queue header.count).2
          extra := st0.extra }
        ((body.filter (fun e => !env.is_signed e)).take
            ((body.filter (fun e => !env.is_signed e)).length - 1)
          ++ (pop_txs_ver header.seed st0.queue header.count).1.filterMap
              env.decode
          ++ (body.filter (fun e => !env.is_signed e)).drop
            ((body.filter (fun e => !env.is_signed e)).length - 1))
      = Except.ok stf ∧
    new_enqueued_check env block_number stf = Except.ok () ∧
    env.state_root stf = header.state_root := by
  simp only [execute_block_ver_impl, final_checks] at h
  split at h
  · cases h
  · rename_i hver
    split at h
    · cases h
    · rename_i hinit
      split at h
      · cases h
      · rename_i hlen
        split at h
        · cases h
        · split at h
          · cases h
          · rename_i hmm
            split at h
            · cases h
            · rename_i st2 hexec
              split at h
              · cases h
              · split at h
                · cases h
                · rename_i u hnew
                  cases u
                  split at h
                  · cases h
                  · rename_i hroot
                    rw [Except.ok.injEq] at h
                    subst h
                    refine ⟨?_, ?_, ?_, ?_, ?_, ?_, ?_⟩
                    · exact (by simpa using hver)
                    · exact (by simpa using hinit)
                    · exact Decidable.not_not.mp hlen
                    · exact Decidable.not_not.mp hmm
                    · exact hexec
                    · exact hnew
                    · exact Decidable.not_not.mp hroot

theorem check_batch_weights_sum {D X S : Type _} (env : VerEnv D X S) :
    ∀ (l : List X) (all : Nat), check_batch_weights env l all = Except.ok () →
      (l.map env.get_dispatch_info).sum + all ≤ env.max_weight ∨ l = [] := by
  intro l
  induction l with
  | nil => intro all _; exact Or.inr rfl
  | cons t rest ih =>
    intro all h
    rw [check_batch_weights] at h
    split at h
    · cases h
    · split at h
      · cases h
      · rename_i all2 hcalc
        rw [calculate_consumed_weight] at hcalc
        have hle : all + env.get_dispatch_info t ≤ env.max_weight ∧
            all2 = all + env.get_dispatch_info t := by
          split at hcalc
          · cases hcalc
          · rename_i hgt
            rw [Option.some_inj] at hcalc
            exact ⟨by omega, hcalc.symm⟩
        left
        rw [List.map_cons, List.sum_cons]
        rcases ih all2 h with h2 | h2
        · omega
        · subst h2
          simp only [List.map_nil, List.sum_nil]
          omega

/-- C5: during verification, the signed (non-inherent) extrinsics in the
block body must be exactly the transactions popped from the storage queue,
element by element and in order: a successful import implies the two lists
are equal, so any mismatch aborts the import (the
"popped_txs == curr_block_extrinsics" hard assert). -/
theorem verified_body_signed_txs_equal_popped {D X S : Type _}
    [DecidableEq D] [DecidableEq X] (env : VerEnv D X S)
    (block_number : Nat) (header : Header) (body : List X)
    (st0 stf : SysState D S)
    (h : execute_block_ver_impl env block_number header body st0
      = Except.ok stf) :
    (pop_txs_ver header.seed st0.queue header.count).1.filterMap env.decode
      = body.filter (fun e => env.is_signed e) :=
  (execute_block_ver_ok_inversion env block_number header body st0 stf
    h).2.2.2.1

/-- C5 witness: a concrete block whose single signed extrinsic `107` is
exactly the transaction popped from the queue verifies successfully, and
the theorem applies to it. -/
theorem verified_body_signed_txs_equal_popped_witness :
    (pop_txs_ver hdrW.seed stW.queue hdrW.count).1.filterMap envW.decode
      = List.filter (fun e => envW.is_signed e) [107] :=
  verified_body_signed_txs_equal_popped envW 1 hdrW [107] stW stW2 (by rfl)

/-- C6: during verification exactly `header.count` transactions are popped
from the storage queue; when the queue holds fewer than `header.count`,
the import fails hard with the "not enought elements to pop found" fault
rather than silently truncating. -/
theorem pop_exactly_count_or_hard_fail {D X S : Type _} [DecidableEq D]
    [DecidableEq X] (env : VerEnv D X S) (block_number : Nat)
    (header : Header) (body : List X) (st0 : SysState D S)
    (h1 : env.ver_checks_ok = true) (h2 : env.initial_checks_ok = true) :
    (header.count ≤ queue_total st0.queue →
      (pop_txs_ver header.seed st0.queue header.count).1.length
        = header.count) ∧
    (queue_total st0.queue < header.count →
      execute_block_ver_impl env block_number header body st0
        = Except.error VerError.not_enough_elements_to_pop) := by
  constructor
  · intro hle
    rw [pop_txs_ver_length]
    omega
  · intro hlt
    have hmin := pop_txs_ver_length header.seed st0.queue header.count
    simp only [execute_block_ver_impl]
    rw [if_neg (by simp [h1]), if_neg (by simp [h2]),
      if_pos (by rw [hmin]; omega)]

/-- C6 witness: a block declaring `count = 1` over an empty queue is
rejected with the not-enough-elements fault. -/
theorem pop_exactly_count_or_hard_fail_witness :
    execute_block_ver_impl envW 1 hdrW ([] : List Nat)
        { queue := [], extra := 0 }
      = Except.error VerError.not_enough_elements_to_pop :=
  (pop_exactly_count_or_hard_fail envW 1 hdrW [] { queue := [], extra := 0 }
    rfl rfl).2 (by decide)

/-- C7: a replayed signed transaction whose application fails with a
non-exhausting validity error (e.g. a bad nonce) does not panic the node
importing the block: it is skipped and execution continues with the
remaining transactions unchanged. -/
theorem replayed_invalid_tx_skipped {D X S : Type _} (env : VerEnv D X S)
    (st : SysState D S) (t : X) (rest : List X) (e : TxError)
    (hsig : env.is_signed t = true)
    (happ : env.apply_extrinsic st t = Except.error e)
    (hex : e.exhausted = false) :
    execute_extrinsics_with_book_keeping env st (t :: rest)
      = execute_extrinsics_with_book_keeping env st rest := by
  rw [execute_extrinsics_with_book_keeping, happ]
  simp [hsig, hex]

/-- C7 witness: with every application failing non-exhaustingly, a signed
transaction is skipped and the block still finishes its book-keeping. -/
theorem replayed_invalid_tx_skipped_witness :
    execute_extrinsics_with_book_keeping envSkip
        { queue := [], extra := 0 } [5]
      = execute_extrinsics_with_book_keeping envSkip
        { queue := [], extra := 0 } [] :=
  replayed_invalid_tx_skipped envSkip { queue := [], extra := 0 } 5 []
    { exhausted := false } rfl rfl rfl

/-- C8: if a verified block enqueued a new batch for the current block
number, the batch's aggregate weight stays within the runtime's configured
block capacity — a batch that would exhaust the limits can only end in the
"Transaction would exhaust the block limits" hard fault, never in a
successful import. -/
theorem enqueued_batch_within_block_limits {D X S : Type _} [DecidableEq D]
    [DecidableEq X] (env : VerEnv D X S) (block_number : Nat)
    (header : Header) (body : List X) (st0 stf : SysState D S)
    (h : execute_block_ver_impl env block_number header body st0
      = Except.ok stf)
    (entry : QueueEntry D) (hlast : stf.queue.getLast? = some entry)
    (hnr : entry.block_nr = block_number) (decoded : List X)
    (hdec : decode_all env entry.txs = some decoded) :
    (decoded.map env.get_dispatch_info).sum ≤ env.max_weight := by
  have hinv := execute_block_ver_ok_inversion env block_number header body
    st0 stf h
  have hnew := hinv.2.2.2.2.2.1
  simp only [new_enqueued_check, hlast] at hnew
  rw [if_pos hnr, check_enqueued_batch] at hnew
  split at hnew
  · cases hnew
  · split at hnew
    · rename_i hnone
      rw [hdec] at hnone
      cases hnone
    · rename_i dec2 hdec2
      rw [hdec] at hdec2
      rw [Option.some_inj] at hdec2
      subst hdec2
      rcases check_batch_weights_sum env decoded 0 hnew with hs | hs
      · omega
      · subst hs
        simp

/-- C8 witness: a concrete verified block whose enqueue inherent `50`
appended the one-transaction batch `[(some 2, 108)]` for block `1`; the
theorem bounds the batch's weight by the block capacity. -/
theorem enqueued_batch_within_block_limits_witness :
    (([108] : List Nat).map envB.get_dispatch_info).sum ≤ envB.max_weight :=
  enqueued_batch_within_block_limits envB 1 hdr0 [50]
    { queue := [], extra := 0 }
    { queue := [entryB], extra := 0 }
    (by rfl)
    entryB
    (by rfl) rfl [108] (by rfl)

/-- C9 counterexample: nine resource-exhausting transactions arriving
before the soft deadline are all tolerated (the loop keeps going and still
stages the tenth, valid transaction), although the claimed fixed bound on
tolerated resource-exceeding skips is 8: only the first 8 are counted
(`skipped = 8`), the ninth is skipped without counting because the clock is
still before the soft deadline. -/
theorem drain_loop_tolerates_more_than_eight_skips :
    propose_with_drain_loop (fun _ => (none : Option Nat)) 1000 100 1000
        0 0 [] [] (List.replicate 9 bad_tx ++ [good_tx])
      = { valid_txs := [(none, 7)], unqueue_invalid := [], skipped := 8,
          block_size := 320,
          end_reason := EndProposingReason.no_more_transactions } := by
  decide

/-- C9 amended: the skip counter is incremented only for the first
`MAX_SKIPPED_TRANSACTIONS = 8` resource-exceeding transactions; once the
counter is exhausted, further resource-exceeding transactions are still
skipped, without bound on their number, as long as the observed clock is
before the soft deadline; with the counter exhausted and the soft deadline
reached, the next size-exceeding (resp. weight-exhausting) transaction
stops the loop with `HitBlockSizeLimit` (resp. `HitBlockWeightLimit`); and
the loop always terminates, considering each pending transaction at most
once. -/
theorem drain_loop_skip_policy {D : Type _} (get_signer : D → Option Nat)
    (deadline soft_deadline block_size_limit : Nat) :
    (∀ (skipped block_size : Nat) (valid : List (Option Nat × D))
        (unq : List D) (tx : PendingTx D) (rest : List (PendingTx D)),
      MAX_SKIPPED_TRANSACTIONS ≤ skipped → tx.t_now ≤ deadline →
      block_size + tx.size + 32 > block_size_limit →
      soft_deadline ≤ tx.t_now →
      propose_with_drain_loop get_signer deadline soft_deadline
          block_size_limit skipped block_size valid unq (tx :: rest)
        = ⟨valid, unq, skipped, block_size + tx.size + 32,
            EndProposingReason.hit_block_size_limit⟩) ∧
    (∀ (skipped block_size : Nat) (valid : List (Option Nat × D))
        (unq : List D) (tx : PendingTx D) (rest : List (PendingTx D)),
      MAX_SKIPPED_TRANSACTIONS ≤ skipped → tx.t_now ≤ deadline →
      block_size + tx.size + 32 ≤ block_size_limit →
      tx.validity = TxValidity.exhausted → soft_deadline ≤ tx.t_now2 →
      propose_with_drain_loop get_signer deadline soft_deadline
          block_size_limit skipped block_size valid unq (tx :: rest)
        = ⟨valid, unq, skipped, block_size + tx.size + 32,
            EndProposingReason.hit_block_weight_limit⟩) ∧
    (∀ (pending : List (PendingTx D)) (skipped block_size : Nat)
        (valid : List (Option Nat × D)) (unq : List D),
      (propose_with_drain_loop get_signer deadline soft_deadline
          block_size_limit skipped block_size valid unq
          pending).valid_txs.length ≤ valid.length + pending.length) := by
  refine ⟨?_, ?_, ?_⟩
  · intro skipped block_size valid unq tx rest hsk hdl hover hsoft
    rw [propose_with_drain_loop, if_neg (by omega)]
    simp only
    rw [if_pos hover, if_neg (by rw [MAX_SKIPPED_TRANSACTIONS] at hsk ⊢; omega),
      if_neg (by omega)]
  · intro skipped block_size valid unq tx rest hsk hdl hfits hval hsoft
    rw [propose_with_drain_loop, if_neg (by omega)]
    simp only
    rw [if_neg (by omega), hval]
    simp only
    rw [if_neg (by rw [MAX_SKIPPED_TRANSACTIONS] at hsk ⊢; omega),
      if_neg (by omega)]
  · intro pending
    induction pending with
    | nil => intro skipped block_size valid unq; simp [propose_with_drain_loop]
    | cons tx rest ih =>
      intro skipped block_size valid unq
      rw [propose_with_drain_loop]
      split
      · simp
      · simp only
        split
        · split
          · have := ih (skipped + 1) (block_size + tx.size + 32) valid unq
            simp only [List.length_cons]
            omega
          · split
            · have := ih skipped (block_size + tx.size + 32) valid unq
              simp only [List.length_cons]
              omega
            · simp
        · split
          · rename_i hok
            have := ih skipped (block_size + tx.size + 32)
              (valid ++ [(get_signer tx.data, tx.data)]) unq
            simp only [List.length_cons, List.length_append,
              List.length_nil] at this ⊢
            omega
          · split
            · have := ih (skipped + 1) (block_size + tx.size + 32) valid unq
              simp only [List.length_cons]
              omega
            · split
              · have := ih skipped (block_size + tx.size + 32) valid unq
                simp only [List.length_cons]
                omega
              · simp
          · split
            · have := ih skipped (block_size + tx.size + 32) valid unq
              simp only [List.length_cons]
              omega
            · have := ih skipped (block_size + tx.size + 32) valid
                (unq ++ [tx.data])
              simp only [List.length_cons]
              omega

/-- C9 amended-theorem witness: the three parts applied at concrete
inputs: with the counter at 8 and clocks past the soft deadline, one
oversized (resp. one weight-exhausting) transaction ends the loop at once,
and the staged-transaction count is bounded by the pending count. -/
theorem drain_loop_skip_policy_witness :
    (propose_with_drain_loop (fun _ => (none : Option Nat)) 1000 100 10
        8 0 [] [] [big_late_tx]
      = ⟨[], [], 8, 132, EndProposingReason.hit_block_size_limit⟩) ∧
    (propose_with_drain_loop (fun _ => (none : Option Nat)) 1000 100 1000
        8 0 [] [] [exhausting_late_tx]
      = ⟨[], [], 8, 33, EndProposingReason.hit_block_weight_limit⟩) ∧
    (propose_with_drain_loop (fun _ => (none : Option Nat)) 1000 100 1000
        0 0 [] [] (List.replicate 9 bad_tx ++ [good_tx])).valid_txs.length
      ≤ 0 + (List.replicate 9 bad_tx ++ [good_tx]).length := by
  refine ⟨?_, ?_, ?_⟩
  · exact (drain_loop_skip_policy (fun _ => none) 1000 100 10).1
      8 0 [] [] _ [] (by decide) (by decide) (by decide) (by decide)
  · exact (drain_loop_skip_policy (fun _ => none) 1000 100 1000).2.1
      8 0 [] [] _ [] (by decide) (by decide) (by decide) (by decide) (by decide)
  · exact (drain_loop_skip_policy (fun _ => none) 1000 100 1000).2.2
      (List.replicate 9 bad_tx ++ [good_tx]) 0 0 [] []

/-! ## Support lemmas for the agreement theorem -/

theorem pop_txs_min {D : Type _} :
    ∀ (n : Nat) (q : List (QueueEntry D)),
      pop_txs q (min n (queue_total q)) = pop_txs q n := by
  intro n
  induction n with
  | zero => intro q; simp
  | succ n ih =>
    intro q
    cases hp : pop_one q with
    | none =>
      have h0 : queue_total q = 0 := (pop_one_none_iff q).mp hp
      rw [h0]
      simp only [Nat.min_zero]
      rw [pop_txs, pop_txs]
      rw [hp]
    | some pr =>
      have ht := pop_one_total q pr.1 pr.2 (by rw [hp])
      have hm : min (n + 1) (queue_total q) = min n (queue_total pr.2) + 1 := by
        omega
      rw [hm, pop_txs, pop_txs, hp]
      simp only
      rw [ih pr.2]

theorem pop_txs_nil {D : Type _} :
    ∀ (n : Nat), pop_txs ([] : List (QueueEntry D)) n = ([], []) := by
  intro n
  cases n with
  | zero => rfl
  | succ n => rfl

theorem queue_total_eq_zero_of_wf {D : Type _} {q : List (QueueEntry D)}
    (hwf : ∀ e ∈ q, e.txs ≠ []) (h0 : queue_total q = 0) : q = [] := by
  cases q with
  | nil => rfl
  | cons e rest =>
    rw [queue_total_cons] at h0
    have he := hwf e (List.mem_cons_self e rest)
    cases hx : e.txs with
    | nil => exact absurd hx he
    | cons p ts => rw [hx] at h0; simp at h0

theorem filterMap_length_of_forall_some {D X : Type _} {f : D → Option X} :
    ∀ {l : List D}, (∀ d ∈ l, ∃ t, f d = some t) →
      (l.filterMap f).length = l.length := by
  intro l
  induction l with
  | nil => intro _; rfl
  | cons d rest ih =>
    intro h
    obtain ⟨t, ht⟩ := h d (List.mem_cons_self d rest)
    rw [List.filterMap_cons, ht]
    simp only [List.length_cons]
    rw [ih (fun d2 hd2 => h d2 (List.mem_cons_of_mem d hd2))]

theorem decode_all_concat {D X S : Type _} (env : VerEnv D X S) :
    ∀ (l : List (Option Nat × D)) (ds : List X) (p : Option Nat × D)
      (t : X), decode_all env l = some ds → env.decode p.2 = some t →
      decode_all env (l ++ [p]) = some (ds ++ [t]) := by
  intro l
  induction l with
  | nil =>
    intro ds p t hl hp
    rw [decode_all] at hl
    rw [Option.some_inj] at hl
    subst hl
    simp only [List.nil_append]
    rw [decode_all, hp, decode_all]
  | cons q rest ih =>
    intro ds p t hl hp
    rw [decode_all] at hl
    cases hq : env.decode q.2 with
    | none => rw [hq] at hl; cases hl
    | some tq =>
      rw [hq] at hl
      cases hr : decode_all env rest with
      | none => rw [hr] at hl; cases hl
      | some ts =>
        rw [hr] at hl
        rw [Option.some_inj] at hl
        subst hl
        rw [List.cons_append, decode_all, hq, ih ts p t hr hp]
        rfl

theorem check_batch_weights_concat {D X S : Type _} (env : VerEnv D X S)
    (t : X) (hchk : env.check_ok t = true) :
    ∀ (ds : List X) (all : Nat),
      check_batch_weights env ds all = Except.ok () →
      all + (ds.map env.get_dispatch_info).sum + env.get_dispatch_info t
        ≤ env.max_weight →
      check_batch_weights env (ds ++ [t]) all = Except.ok () := by
  intro ds
  induction ds with
  | nil =>
    intro all _ hle
    simp only [List.nil_append]
    rw [check_batch_weights, if_neg (by rw [hchk]; exact fun h => by cases h),
      calculate_consumed_weight]
    rw [if_neg (by simp only [List.map_nil, List.sum_nil] at hle; omega)]
    rfl
  | cons d rest ih =>
    intro all hok hle
    rw [check_batch_weights] at hok
    split at hok
    · cases hok
    · rename_i hchk2
      split at hok
      · cases hok
      · rename_i all2 hcalc
        rw [List.cons_append, check_batch_weights, if_neg hchk2, hcalc]
        apply ih all2 hok
        rw [calculate_consumed_weight] at hcalc
        split at hcalc
        · cases hcalc
        · rename_i hgt
          rw [Option.some_inj] at hcalc
          simp only [List.map_cons, List.sum_cons] at hle
          omega

theorem select_valid_txs_invariant {D X S : Type _} [DecidableEq D]
    (env : VerEnv D X S) :
    ∀ (pool staged : List (Option Nat × D)) (all : Nat) (ds : List X),
      staged.Nodup →
      decode_all env staged = some ds →
      check_batch_weights env ds 0 = Except.ok () →
      (ds.map env.get_dispatch_info).sum = all →
      (∀ t ∈ ds, env.check_ok t = true) →
      ∃ ds2, (select_valid_txs env pool staged all).Nodup ∧
        decode_all env (select_valid_txs env pool staged all) = some ds2 ∧
        check_batch_weights env ds2 0 = Except.ok () := by
  intro pool
  induction pool with
  | nil =>
    intro staged all ds hnd hdec hwt _ _
    exact ⟨ds, hnd, hdec, hwt⟩
  | cons p pool ih =>
    intro staged all ds hnd hdec hwt hsum hok
    rw [select_valid_txs]
    cases hd : env.decode p.2 with
    | none => exact ih staged all ds hnd hdec hwt hsum hok
    | some t =>
      simp only
      by_cases hsig : env.is_signed t = false
      · rw [if_pos hsig]
        exact ih staged all ds hnd hdec hwt hsum hok
      · rw [if_neg hsig]
        by_cases hchk : env.check_ok t = false
        · rw [if_pos hchk]
          exact ih staged all ds hnd hdec hwt hsum hok
        · rw [if_neg hchk]
          by_cases hmem : p ∈ staged
          · rw [if_pos hmem]
            exact ih staged all ds hnd hdec hwt hsum hok
          · rw [if_neg hmem]
            cases hcalc : calculate_consumed_weight env.max_weight all
                (env.get_dispatch_info t) with
            | none => exact ih staged all ds hnd hdec hwt hsum hok
            | some all2 =>
              simp only
              have hboundeq : all + env.get_dispatch_info t ≤ env.max_weight
                  ∧ all2 = all + env.get_dispatch_info t := by
                rw [calculate_consumed_weight] at hcalc
                split at hcalc
                · cases hcalc
                · rename_i hgt
                  rw [Option.some_inj] at hcalc
                  exact ⟨by omega, hcalc.symm⟩
              apply ih (staged ++ [p]) all2 (ds ++ [t])
              · rw [List.nodup_append]
                exact ⟨hnd, List.nodup_singleton p,
                  by simp [List.disjoint_singleton]; exact hmem⟩
              · exact decode_all_concat env staged ds p t hdec hd
              · apply check_batch_weights_concat env t
                  (eq_true_of_ne_false hchk) ds 0 hwt
                omega
              · rw [List.map_append, List.sum_append]
                simp only [List.map_cons, List.map_nil, List.sum_cons,
                  List.sum_nil]
                omega
              · intro t2 ht2
                rw [List.mem_append] at ht2
                rcases ht2 with ht2 | ht2
                · exact hok t2 ht2
                · rw [List.mem_singleton] at ht2
                  subst ht2
                  exact eq_true_of_ne_false hchk

theorem select_valid_txs_batch_ok {D X S : Type _} [DecidableEq D]
    (env : VerEnv D X S) (pool : List (Option Nat × D)) :
    check_enqueued_batch env (select_valid_txs env pool [] 0)
      = Except.ok () := by
  obtain ⟨ds2, hnd, hdec, hwt⟩ :=
    select_valid_txs_invariant env pool [] 0 [] List.nodup_nil rfl rfl rfl
      (by intro t ht; cases ht)
  rw [check_enqueued_batch, if_neg (by simpa using hnd), hdec]
  exact hwt

theorem execute_appends_enqueue {D X S : Type _} (env : VerEnv D X S)
    (b : List (Option Nat × D)) (xq : X) (nr : Nat)
    (h_enq : ∀ s : SysState D S, env.apply_extrinsic s xq
      = Except.ok { queue := s.queue
          ++ [{ block_nr := nr, index := 0, txs := b }], extra := s.extra })
    (h_fin : ∀ s : SysState D S, (env.finalize_hook s).queue = s.queue) :
    ∀ (txs : List X) (st st2 : SysState D S),
      (∀ x ∈ txs, ∀ s s2 : SysState D S,
        env.apply_extrinsic s x = Except.ok s2 → s2.queue = s.queue) →
      execute_extrinsics_with_book_keeping env st (txs ++ [xq])
        = Except.ok st2 →
      st2.queue = st.queue ++ [{ block_nr := nr, index := 0, txs := b }] := by
  intro txs
  induction txs with
  | nil =>
    intro st st2 _ hex
    simp only [List.nil_append, execute_extrinsics_with_book_keeping,
      h_enq st] at hex
    rw [Except.ok.injEq] at hex
    subst hex
    rw [h_fin]
  | cons x rest ih =>
    intro st st2 hpres hex
    rw [List.cons_append, execute_extrinsics_with_book_keeping] at hex
    cases happ : env.apply_extrinsic st x with
    | ok s2 =>
      simp only [happ] at hex
      have hq := hpres x (List.mem_cons_self x rest) st s2 happ
      rw [ih s2 st2 (fun y hy => hpres y (List.mem_cons_of_mem x hy)) hex, hq]
    | error e =>
      simp only [happ] at hex
      split at hex
      · simp at hex
      · exact ih st st2 (fun y hy => hpres y (List.mem_cons_of_mem x hy)) hex

theorem execute_block_ver_ok_intro {D X S : Type _} [DecidableEq D]
    [DecidableEq X] (env : VerEnv D X S) (block_number : Nat)
    (header : Header) (body : List X) (st0 st2 : SysState D S)
    (h1 : env.ver_checks_ok = true) (h2 : env.initial_checks_ok = true)
    (h3 : (pop_txs_ver header.seed st0.queue header.count).1.length
      = header.count)
    (h4 : ¬(0 < (body.filter (fun e => env.is_signed e)).length ∧
      ¬((pop_txs_ver header.seed st0.queue header.count).2.isEmpty = true ∨
        0 < header.count)))
    (h5 : (pop_txs_ver header.seed st0.queue header.count).1.filterMap
        env.decode = body.filter (fun e => env.is_signed e))
    (h6 : execute_extrinsics_with_book_keeping env
        { queue := (pop_txs_ver header.seed st0.queue header.count).2
          extra := st0.extra }
        ((body.filter (fun e => !env.is_signed e)).take
            ((body.filter (fun e => !env.is_signed e)).length - 1)
          ++ (pop_txs_ver header.seed st0.queue header.count).1.filterMap
              env.decode
          ++ (body.filter (fun e => !env.is_signed e)).drop
            ((body.filter (fun e => !env.is_signed e)).length - 1))
      = Except.ok st2)
    (h7 : (pop_txs_ver header.seed st0.queue header.count).2.length = 0 ∨
      header.count ≠ 0 ∨
      (pop_txs_ver header.seed st0.queue header.count).2.length
        = enqueued_blocks_count st2)
    (h8 : new_enqueued_check env block_number st2 = Except.ok ())
    (h9 : env.state_root st2 = header.state_root) :
    execute_block_ver_impl env block_number header body st0
      = Except.ok st2 := by
  simp only [execute_block_ver_impl, final_checks]
  rw [if_neg (by simp [h1]), if_neg (by simp [h2]),
    if_neg (by rw [h3]; exact fun hne => hne rfl), if_neg h4,
    if_neg (by rw [h5]; exact fun hne => hne rfl), h6]
  simp only [enqueued_blocks_count] at h7 ⊢
  rw [if_neg (by push_neg; simpa using h7), h8]
  simp only
  rw [if_neg (by rw [h9]; exact fun hne => hne rfl)]

/-- C1: Builder/Executor agreement.  For every parent state (with a
well-formed queue), pool content and shuffling seed, feeding the block
produced by the spec-modelled VER builder through the verifier's
`execute_block_ver_impl` succeeds — no hard fault fires — and the verifier
reaches exactly the state the builder recorded (in particular the state
root in the block header matches).  The interface contracts of the spec's
external collaborators appear as hypotheses: the VRF seed the builder
signed verifies (`ver_checks_ok`), the structural header checks pass for
an honestly assembled block (`initial_checks_ok`), inherents and the
enqueue inherent are unsigned, the enqueue inherent appends exactly its
batch to the storage queue while ordinary dispatch never touches the
queue, end-of-block hooks preserve the queue, queued payloads decode to
signed transactions, a non-empty queue is replayed (`0 < c`), and the
builder's own execution did not abort. -/
theorem builder_executor_agreement {D X S : Type _} [DecidableEq D]
    [DecidableEq X] (env : VerEnv D X S) (block_number : Nat)
    (st0 : SysState D S) (inherents : List X)
    (enqueue_xt : List (Option Nat × D) → X) (c : Nat) (seed : List Nat)
    (pool : List (Option Nat × D))
    (hver : env.ver_checks_ok = true)
    (hinit : env.initial_checks_ok = true)
    (hwf : ∀ e ∈ st0.queue, e.txs ≠ [])
    (hc : st0.queue ≠ [] → 0 < c)
    (h_inh : ∀ x ∈ inherents, env.is_signed x = false)
    (h_enq_sig : ∀ b, env.is_signed (enqueue_xt b) = false)
    (h_enq_apply : ∀ (s : SysState D S) b, env.apply_extrinsic s
        (enqueue_xt b)
      = Except.ok { queue := s.queue
          ++ [{ block_nr := block_number, index := 0, txs := b }], extra := s.extra })
    (h_pres : ∀ x, (x ∈ inherents ∨
        x ∈ (pop_txs_ver seed st0.queue c).1.filterMap env.decode) →
      ∀ s s2 : SysState D S,
        env.apply_extrinsic s x = Except.ok s2 → s2.queue = s.queue)
    (h_fin : ∀ s : SysState D S, (env.finalize_hook s).queue = s.queue)
    (h_popped : ∀ d ∈ (pop_txs_ver seed st0.queue c).1,
      ∃ t, env.decode d = some t ∧ env.is_signed t = true)
    (hdr : Header) (body : List X) (stB : SysState D S)
    (hbuild : build_block_ver env block_number st0 inherents enqueue_xt c
      seed pool = Except.ok (hdr, body, stB)) :
    execute_block_ver_impl env block_number hdr body st0
      = Except.ok stB := by
  simp only [build_block_ver] at hbuild
  split at hbuild
  · cases hbuild
  · rename_i st2 hexec
    rw [Except.ok.injEq, Prod.mk.injEq, Prod.mk.injEq] at hbuild
    obtain ⟨h_hdr, h_body, h_stB⟩ := hbuild
    subst h_stB
    subst h_hdr
    subst h_body
    -- F1: popping the declared count pops the same transactions
    have hm : (pop_txs_ver seed st0.queue c).1.length
        = min c (queue_total st0.queue) := pop_txs_ver_length _ _ _
    have hF1 : pop_txs_ver seed st0.queue
        (pop_txs_ver seed st0.queue c).1.length
        = pop_txs_ver seed st0.queue c := by
      rw [hm]
      show (shuffle_using_seed Nat.blt
          (pop_txs st0.queue (min c (queue_total st0.queue))).1 seed,
          (pop_txs st0.queue (min c (queue_total st0.queue))).2)
        = _
      rw [pop_txs_min]
      rfl
    -- signedness of the replayed transactions
    have h_popped_signed : ∀ t ∈ (pop_txs_ver seed st0.queue
        c).1.filterMap env.decode, env.is_signed t = true := by
      intro t ht
      rw [List.mem_filterMap] at ht
      obtain ⟨d, hd, hdec⟩ := ht
      obtain ⟨t2, hdec2, hsig2⟩ := h_popped d hd
      rw [hdec2, Option.some_inj] at hdec
      subst hdec
      exact hsig2
    -- F3: the two body filters
    have hF3s : (inherents ++ [enqueue_xt (select_valid_txs env pool [] 0)]
          ++ (pop_txs_ver seed st0.queue c).1.filterMap env.decode).filter
          (fun e => env.is_signed e)
        = (pop_txs_ver seed st0.queue c).1.filterMap env.decode := by
      rw [List.filter_append, List.filter_append]
      rw [List.filter_eq_nil_iff.mpr
        (by intro x hx; simp [h_inh x hx])]
      rw [List.filter_eq_nil_iff.mpr
        (by intro x hx; rw [List.mem_singleton] at hx; subst hx
            simp [h_enq_sig])]
      rw [List.filter_eq_self.mpr
        (by intro t ht; simpa using h_popped_signed t ht)]
      rfl
    have hF3i : (inherents ++ [enqueue_xt (select_valid_txs env pool [] 0)]
          ++ (pop_txs_ver seed st0.queue c).1.filterMap env.decode).filter
          (fun e => !env.is_signed e)
        = inherents ++ [enqueue_xt (select_valid_txs env pool [] 0)] := by
      rw [List.filter_append, List.filter_append]
      rw [List.filter_eq_self.mpr (by intro x hx; simp [h_inh x hx])]
      rw [List.filter_eq_self.mpr
        (by intro x hx; rw [List.mem_singleton] at hx; subst hx
            simp [h_enq_sig])]
      rw [List.filter_eq_nil_iff.mpr
        (by intro t ht; simp [h_popped_signed t ht])]
      rw [List.append_nil]
    -- the take/drop reconstruction of the executed list
    have hlen_inh : (inherents
        ++ [enqueue_xt (select_valid_txs env pool [] 0)]).length
        = inherents.length + 1 := by simp
    have htake : (inherents
        ++ [enqueue_xt (select_valid_txs env pool [] 0)]).take
          ((inherents ++ [enqueue_xt (select_valid_txs env pool
            [] 0)]).length - 1) = inherents := by
      rw [hlen_inh]
      simp only [Nat.add_sub_cancel]
      exact List.take_left inherents _
    have hdrop : (inherents
        ++ [enqueue_xt (select_valid_txs env pool [] 0)]).drop
          ((inherents ++ [enqueue_xt (select_valid_txs env pool
            [] 0)]).length - 1)
        = [enqueue_xt (select_valid_txs env pool [] 0)] := by
      rw [hlen_inh]
      simp only [Nat.add_sub_cancel]
      exact List.drop_left inherents _
    -- the popped length under the full-decode hypothesis
    have hplen : ((pop_txs_ver seed st0.queue c).1.filterMap
        env.decode).length = (pop_txs_ver seed st0.queue c).1.length :=
      filterMap_length_of_forall_some
        (fun d hd => (h_popped d hd).imp (fun t ht => ht.1))
    -- F8: the final queue carries the enqueued batch last
    have hqueue : st2.queue = (pop_txs_ver seed st0.queue c).2
        ++ [{ block_nr := block_number, index := 0, txs := select_valid_txs env pool [] 0 }] := by
      refine execute_appends_enqueue env (select_valid_txs env pool [] 0)
        (enqueue_xt (select_valid_txs env pool [] 0)) block_number
        (fun s => h_enq_apply s _) h_fin
        (inherents ++ (pop_txs_ver seed st0.queue c).1.filterMap env.decode)
        { queue := (pop_txs_ver seed st0.queue c).2, extra := st0.extra }
        st2 ?_ ?_
      · intro x hx
        rw [List.mem_append] at hx
        exact h_pres x hx
      · exact hexec
    -- apply the success-introduction lemma
    apply execute_block_ver_ok_intro
    · exact hver
    · exact hinit
    · show (pop_txs_ver seed st0.queue
          (pop_txs_ver seed st0.queue c).1.length).1.length = _
      rw [hF1]
    · -- the queue-not-processed guard
      show ¬(0 < (List.filter (fun e => env.is_signed e) _).length ∧ _)
      rw [hF3s]
      rintro ⟨hpos, hneg⟩
      apply hneg
      right
      show 0 < (pop_txs_ver seed st0.queue c).1.length
      rw [hplen] at hpos
      exact hpos
    · show (pop_txs_ver seed st0.queue
            (pop_txs_ver seed st0.queue c).1.length).1.filterMap env.decode
          = _
      rw [hF1, hF3s]
    · rw [hF1, hF3i, htake, hdrop]
      exact hexec
    · -- the collator-did-not-execute guard
      rw [hF1]
      by_cases hq0 : st0.queue = []
      · left
        show (pop_txs st0.queue c).2.length = 0
        rw [hq0, pop_txs_nil]
        rfl
      · right
        left
        show (pop_txs_ver seed st0.queue c).1.length ≠ 0
        rw [hm]
        have havail : queue_total st0.queue ≠ 0 :=
          fun h0 => hq0 (queue_total_eq_zero_of_wf hwf h0)
        have hcpos := hc hq0
        omega
    · -- the newly-enqueued batch checks
      rw [new_enqueued_check, hqueue, List.getLast?_concat]
      show (if ({ block_nr := block_number, index := 0, txs := select_valid_txs env pool [] 0 } : QueueEntry D).block_nr = block_number then check_enqueued_batch env (select_valid_txs env pool [] 0) else Except.ok ()) = Except.ok ()
      rw [if_pos rfl]
      exact select_valid_txs_batch_ok env pool
    · rfl

/-- C1 witness: the block built from parent state `stW` (one queued signed
transaction), no inherents and an empty pool verifies successfully and the
verifier reaches exactly the builder's final state. -/
theorem builder_executor_agreement_witness :
    execute_block_ver_impl envC1 1 hdrW [XtW.enq [], XtW.tx 107] stW
      = Except.ok stBC1 :=
  builder_executor_agreement envC1 1 stW [] XtW.enq 1
    (List.replicate 32 0) []
    rfl rfl
    (by decide)
    (fun _ => by decide)
    (fun x hx => absurd hx (List.not_mem_nil x))
    (fun b => rfl)
    (fun s b => rfl)
    (by
      intro x hx s s2 happ
      rcases hx with hx | hx
      · exact absurd hx (List.not_mem_nil x)
      · rw [show (pop_txs_ver (List.replicate 32 0) stW.queue
            1).1.filterMap envC1.decode = [XtW.tx 107] from rfl] at hx
        rw [List.mem_singleton] at hx
        subst hx
        have h2 : s = s2 := Except.ok.inj happ
        rw [← h2])
    (fun s => rfl)
    (fun d _ => ⟨XtW.tx d, rfl, rfl⟩)
    hdrW [XtW.enq [], XtW.tx 107] stBC1
    (by rfl)

end Spec2Proof
